import Mathlib

/-!
# Secret codes of the settings widget

A verification development for `Telegram/SourceFiles/settings/settings_widget.cpp`.

The file keeps two globals, `SecretText` (the pending buffer) and `Codes` (a `QMap` from
phrase to callback).  `codesFeedString` appends the lower-cased text of a key event to
`SecretText`, scans the start offsets `from = 0, 1, 2, ...` and stops at the first offset
whose suffix equals a key of `Codes` (the callback is invoked) or is the beginning of a key
(the suffix is kept).

Strings are lists of characters, the `QMap` is the list of its entries in iteration order,
`QString::toLower` is a parameter of the model, and every invocation of a callback is
recorded together with the value `SecretText` has at that moment.

`Widget::parentResized` computes the width and the left padding of the content from the
width of the parent; its style constants are parameters of the model, and its arithmetic
is that of the 32-bit type `int`: results wrap, a division by zero has no result.
-/

namespace Settings

/-! ## Strings and the map of codes -/

/-- A `QString` is the sequence of its characters. -/
abbrev QString := List Char

/-- The literal `qsl("...")`. -/
def qsl (s : String) : QString := s.toList

/-- Comparison `a < b` of two `QString`s, the order of the keys of a `QMap`:
lexicographic by character code. -/
def QString.less : QString → QString → Bool
  | [], [] => false
  | [], _ :: _ => true
  | _ :: _, [] => false
  | a :: as, b :: bs =>
    if a.toNat < b.toNat then true
    else if b.toNat < a.toNat then false
    else QString.less as bs

/-- The call `key.startsWith(piece)`. -/
def startsWith (key piece : QString) : Bool := piece.isPrefixOf key

/-- The callbacks stored in `Codes`.  The eleven lambdas of `fillCodes` are named after
their phrases; `other n` stands for any further callback, so that registries different
from the built-in one can be written down. -/
inductive Callback where
  | debugmode
  | testmode
  | loadlang
  | debugfiles
  | crashplease
  | workmode
  | moderate
  | getdifference
  | loadcolors
  | edittheme
  | videoplayer
  | other (n : Nat)
  deriving DecidableEq

/-- The type `QMap<QString, base::lambda_copy<void()>>`: the entries in iteration order
(ascending keys). -/
abbrev QMap := List (QString × Callback)

/-- The call `map.insert(key, value)`: the value of an existing key is replaced, a new key
is put at its place in the order. -/
def QMap.insertKey (key : QString) (value : Callback) : QMap → QMap
  | [] => [(key, value)]
  | (k, v) :: rest =>
    if QString.less key k then (key, value) :: (k, v) :: rest
    else if QString.less k key then (k, v) :: QMap.insertKey key value rest
    else (key, value) :: rest

/-- The function `fillCodes` (lines 48-113): eleven insertions into `Codes`. -/
def fillCodes (codes : QMap) : QMap :=
  codes
  |> QMap.insertKey (qsl "debugmode") Callback.debugmode
  |> QMap.insertKey (qsl "testmode") Callback.testmode
  |> QMap.insertKey (qsl "loadlang") Callback.loadlang
  |> QMap.insertKey (qsl "debugfiles") Callback.debugfiles
  |> QMap.insertKey (qsl "crashplease") Callback.crashplease
  |> QMap.insertKey (qsl "workmode") Callback.workmode
  |> QMap.insertKey (qsl "moderate") Callback.moderate
  |> QMap.insertKey (qsl "getdifference") Callback.getdifference
  |> QMap.insertKey (qsl "loadcolors") Callback.loadcolors
  |> QMap.insertKey (qsl "edittheme") Callback.edittheme
  |> QMap.insertKey (qsl "videoplayer") Callback.videoplayer

/-! ## The globals and `codesFeedString` -/

/-- The two globals of the anonymous namespace (lines 45-46). -/
structure Globals where
  SecretText : QString
  Codes : QMap
  deriving DecidableEq

/-- One execution of `(*i)()` (line 125): the callback that ran and the value the global
`SecretText` had when it was entered. -/
structure Invocation where
  callback : Callback
  secretText : QString
  deriving DecidableEq

/-- Line 116, `if (Codes.isEmpty()) fillCodes();`: the value of `Codes` afterwards. -/
def ensureCodes (codes : QMap) : QMap :=
  if codes.isEmpty then fillCodes codes else codes

/-- The first `for` loop (lines 123-130): the callback of the first entry whose key equals
`piece`, if there is one. -/
def exactLoop : QMap → QString → Option Callback
  | [], _ => none
  | (key, callback) :: rest, piece =>
    if piece = key then some callback else exactLoop rest piece

/-- The second `for` loop (lines 133-138): whether some key starts with `piece`. -/
def viableLoop : QMap → QString → Bool
  | [], _ => false
  | (key, _) :: rest, piece =>
    if startsWith key piece then true else viableLoop rest piece

/-- The `while` loop (lines 120-142), entered with the given value of `from`.  It returns
the value of `from` on leaving the loop and the invocations made. -/
def whileLoop (codes : QMap) (secretText : QString) (size : Nat) (from_ : Nat) :
    Nat × List Invocation :=
  if size > from_ then
    let piece := secretText.drop from_
    match exactLoop codes piece with
    | some callback => (size, [⟨callback, secretText⟩])
    | none =>
      if viableLoop codes piece then (from_, [])
      else whileLoop codes secretText size (from_ + 1)
  else (from_, [])
termination_by size - from_

/-- The function `codesFeedString` (lines 115-144).  It returns the globals afterwards and
the invocations made during the call. -/
def codesFeedString (toLower : QString → QString) (g : Globals) (text : QString) :
    Globals × List Invocation :=
  let codes := ensureCodes g.Codes
  let secretText := g.SecretText ++ toLower text
  let size := secretText.length
  let r := whileLoop codes secretText size 0
  (⟨if size > r.1 then secretText.drop r.1 else [], codes⟩, r.2)

/-- Successive calls of `codesFeedString`, one per key event (`Widget::keyPressEvent`,
line 161): the result of every call, in order. -/
def keyPressEvents (toLower : QString → QString) :
    Globals → List QString → List (Globals × List Invocation)
  | _, [] => []
  | g, text :: rest =>
    let r := codesFeedString toLower g text
    r :: keyPressEvents toLower r.1 rest

/-- The globals after a sequence of calls of `codesFeedString`. -/
def globalsAfter (toLower : QString → QString) (g : Globals) (texts : List QString) :
    Globals :=
  texts.foldl (fun g text => (codesFeedString toLower g text).1) g

/-- Lower-casing of the letters `A`-`Z`, the part of `QString::toLower` every example
below relies on. -/
def asciiToLower (s : QString) : QString := s.map Char.toLower

/-! ## Notions used to state the properties -/

/-- Some key of the map begins with `piece`: the suffix is worth keeping. -/
def Viable (codes : QMap) (piece : QString) : Prop :=
  ∃ e ∈ codes, piece <+: e.1

instance (codes : QMap) (piece : QString) : Decidable (Viable codes piece) :=
  List.decidableBEx _ _

/-- The longest non-empty suffix of `s` that some key begins with, and the empty string
when `s` has none. -/
def pending (codes : QMap) : QString → QString
  | [] => []
  | c :: cs => if viableLoop codes (c :: cs) then c :: cs else pending codes cs

/-- What one scan of the working buffer `B` leaves in `SecretText` and which callback
it invokes, read off the longest viable suffix. -/
def outcome (codes : QMap) (B : QString) : QString × List Invocation :=
  match pending codes B with
  | [] => ([], [])
  | c :: cs =>
    match exactLoop codes (c :: cs) with
    | some callback => ([], [⟨callback, B⟩])
    | none => (c :: cs, [])

/-- The text `t` cut into one fragment per character. -/
def perCharacter (t : QString) : List QString := t.map (fun c => [c])

/-- The callbacks invoked during a sequence of calls, in the order of invocation. -/
def firedCallbacks (rs : List (Globals × List Invocation)) : List Callback :=
  rs.flatMap (fun r => r.2.map Invocation.callback)

/-- The lower-cased text fed since the last call that invoked a callback (since the start
when no call has), after the calls `texts` were made from the globals `g`; `acc` is the
text already fed before them. -/
def typedSinceFiring (toLower : QString → QString) :
    Globals → QString → List QString → QString
  | _, acc, [] => acc
  | g, acc, text :: rest =>
    let r := codesFeedString toLower g text
    typedSinceFiring toLower r.1 (if r.2 = [] then acc ++ toLower text else []) rest

/-- The reference recognizer of the specification, which never drops leading characters:
it keeps the whole lower-cased text fed since the last firing, runs the same scan over
it, and clears only when a callback was invoked. -/
def referenceFeed (toLower : QString → QString) (codes : QMap) (retained text : QString) :
    QString × List Invocation :=
  let B := retained ++ toLower text
  let r := whileLoop codes B B.length 0
  (if r.2 = [] then B else [], r.2)

/-- Successive calls of the reference recognizer: the result of every call, in order. -/
def referenceEvents (toLower : QString → QString) (codes : QMap) :
    QString → List QString → List (QString × List Invocation)
  | _, [] => []
  | retained, text :: rest =>
    let r := referenceFeed toLower codes retained text
    r :: referenceEvents toLower codes r.1 rest

/-- The registry `{"ab": A, "abc": B}` of the specification, with `A = other 0` and
`B = other 1`. -/
def codesAbAbc : QMap := [(qsl "ab", Callback.other 0), (qsl "abc", Callback.other 1)]

/-- The registry `{"ab": A}`. -/
def codesAb : QMap := [(qsl "ab", Callback.other 0)]

/-- The registry `{"abc": A}` of the specification. -/
def codesAbc : QMap := [(qsl "abc", Callback.other 0)]

/-- The registry `{"ab": A, "ax": B}` of the specification. -/
def codesAbAx : QMap := [(qsl "ab", Callback.other 0), (qsl "ax", Callback.other 1)]

/-- The registry `{"abcd": A, "bc": B}`: the second phrase occurs inside the first. -/
def codesAbcdBc : QMap := [(qsl "abcd", Callback.other 0), (qsl "bc", Callback.other 1)]

/-- The length of the longest key of the map (0 for the empty map). -/
def maxKeyLength (codes : QMap) : Nat :=
  (codes.map (fun e => e.1.length)).foldr max 0

/-- How one iteration of the `while` loop ends: the loop is left (one of the two `break`s)
with the final value of `from` and the invocations made, or it goes on with a new value
of `from`. -/
inductive LoopStep where
  | leave (from_ : Nat) (fired : List Invocation)
  | next (from_ : Nat)
  deriving DecidableEq

/-- The body of the `while` loop (lines 121-141), run once at the offset `from`. -/
def loopBody (codes : QMap) (secretText : QString) (size : Nat) (from_ : Nat) : LoopStep :=
  let piece := secretText.drop from_
  match exactLoop codes piece with
  | some callback => LoopStep.leave size [⟨callback, secretText⟩]
  | none =>
    if viableLoop codes piece then LoopStep.leave from_ []
    else LoopStep.next (from_ + 1)

/-- The `while` loop (lines 120-142) run for at most `fuel` iterations: `none` when the
loop has not been left after `fuel` iterations. -/
def whileLoopFuel (codes : QMap) (secretText : QString) (size : Nat) :
    Nat → Nat → Option (Nat × List Invocation)
  | 0, from_ => if size > from_ then none else some (from_, [])
  | fuel + 1, from_ =>
    if size > from_ then
      match loopBody codes secretText size from_ with
      | LoopStep.leave f fired => some (f, fired)
      | LoopStep.next f => whileLoopFuel codes secretText size fuel f
    else some (from_, [])

/-- The style constants `st::...` read by `Widget::parentResized`, each of type `int`. -/
structure Style where
  windowMinWidth : Int
  settingsMaxWidth : Int
  settingsMinPadding : Int
  settingsMaxPadding : Int
  settingsMargin : Int

/-- The number `x` is a value of the type `int` (32 bits, two's complement). -/
def isInt (x : Int) : Prop := -2147483648 ≤ x ∧ x ≤ 2147483647

instance (x : Int) : Decidable (isInt x) := by
  unfold isInt
  infer_instance

/-- The five style constants are values of the type `int`. -/
def Style.isInt (st : Style) : Prop :=
  Settings.isInt st.windowMinWidth ∧ Settings.isInt st.settingsMaxWidth ∧
    Settings.isInt st.settingsMinPadding ∧ Settings.isInt st.settingsMaxPadding ∧
    Settings.isInt st.settingsMargin

instance (st : Style) : Decidable st.isInt := by
  unfold Style.isInt
  infer_instance

/-- The value of type `int` that the result `x` of an addition, subtraction or
multiplication of two `int`s is stored as: `x` reduced modulo `2^32` into the range from
`-2^31` to `2^31 - 1`. -/
def wrapInt (x : Int) : Int := (x + 2147483648) % 4294967296 - 2147483648

/-- The division `a / b` of two `int`s: it truncates toward zero, and it has no result
(the program is stopped) when `b` is zero or the quotient does not fit (`-2^31 / -1`). -/
def divInt (a b : Int) : Option Int :=
  if b = 0 then none
  else if a = -2147483648 ∧ b = -1 then none
  else some (a.tdiv b)

/-- The expression of lines 176 and 184, the same in both branches:
`((newWidth - st::windowMinWidth) * (st::settingsMaxPadding - st::settingsMinPadding))
/ (st::settingsMaxWidth - st::windowMinWidth)`, in `int` arithmetic. -/
def paddingShift (st : Style) (newWidth : Int) : Option Int :=
  divInt
    (wrapInt (wrapInt (newWidth - st.windowMinWidth) *
      wrapInt (st.settingsMaxPadding - st.settingsMinPadding)))
    (wrapInt (st.settingsMaxWidth - st.windowMinWidth))

/-- The function `Widget::parentResized` (lines 165-188), as a function of the style
constants and of the width of the parent: the two arguments `(newWidth, newContentLeft)`
passed to `resizeToWidth`, and `none` when a division has no result. -/
def parentResized (st : Style) (windowWidth : Int) : Option (Int × Int) :=
  if windowWidth ≤ st.settingsMaxWidth then
    let newWidth := windowWidth
    let newContentLeft := st.settingsMinPadding
    if windowWidth > st.windowMinWidth then
      (paddingShift st newWidth).map
        (fun shift => (newWidth, wrapInt (newContentLeft + shift)))
    else some (newWidth, newContentLeft)
  else if windowWidth < wrapInt (st.settingsMaxWidth + wrapInt (2 * st.settingsMargin)) then
    let newWidth := wrapInt (windowWidth - wrapInt (2 * st.settingsMargin))
    let newContentLeft := st.settingsMinPadding
    if windowWidth > st.windowMinWidth then
      (paddingShift st newWidth).map
        (fun shift => (newWidth, wrapInt (newContentLeft + shift)))
    else some (newWidth, newContentLeft)
  else some (st.settingsMaxWidth, st.settingsMaxPadding)

/-- Style constants with a margin wider than half of the range of widths:
`windowMinWidth = 380`, `settingsMaxWidth = 520`, paddings from 32 to 48, margin 100. -/
def styleWideMargin : Style := ⟨380, 520, 32, 48, 100⟩

/-- Style constants with a margin within half of the range of widths:
`windowMinWidth = 380`, `settingsMaxWidth = 520`, paddings from 32 to 48, margin 48. -/
def styleNarrowMargin : Style := ⟨380, 520, 32, 48, 48⟩

/-- Style constants whose interpolation leaves the range of `int`: widths from 0 to
100000, paddings from 0 to 100000, no margin. -/
def styleLarge : Style := ⟨0, 100000, 0, 100000, 0⟩

/-! ## Basic facts about the two inner loops -/

theorem startsWith_iff (key piece : QString) :
    startsWith key piece = true ↔ piece <+: key := by
  unfold startsWith
  exact List.isPrefixOf_iff_prefix

theorem viableLoop_iff (codes : QMap) (piece : QString) :
    viableLoop codes piece = true ↔ Viable codes piece := by
  induction codes with
  | nil =>
    constructor
    · intro h
      exact absurd h (by unfold viableLoop; exact Bool.false_ne_true)
    · rintro ⟨e, he, _⟩
      cases he
  | cons e rest ih =>
    obtain ⟨key, cb⟩ := e
    unfold viableLoop
    by_cases h : startsWith key piece = true
    · simp only [h, if_true, true_iff]
      exact ⟨(key, cb), List.mem_cons_self _ _, (startsWith_iff _ _).1 h⟩
    · simp only [h, if_false, Bool.false_eq_true]
      rw [ih]
      constructor
      · rintro ⟨e, he, hp⟩
        exact ⟨e, List.mem_cons_of_mem _ he, hp⟩
      · rintro ⟨e, he, hp⟩
        rcases List.mem_cons.1 he with rfl | he
        · exact absurd ((startsWith_iff _ _).2 hp) h
        · exact ⟨e, he, hp⟩

theorem exactLoop_eq_lookup (codes : QMap) (piece : QString) :
    exactLoop codes piece = codes.lookup piece := by
  induction codes with
  | nil => rfl
  | cons e rest ih =>
    obtain ⟨key, cb⟩ := e
    unfold exactLoop
    by_cases h : piece = key
    · subst h
      simp [List.lookup]
    · have hb : (piece == key) = false := by simpa using h
      simp [List.lookup, h, hb, ih]

theorem exactLoop_some_mem {codes : QMap} {piece : QString} {cb : Callback}
    (h : exactLoop codes piece = some cb) : (piece, cb) ∈ codes := by
  induction codes with
  | nil => simp [exactLoop] at h
  | cons e rest ih =>
    obtain ⟨key, c⟩ := e
    unfold exactLoop at h
    by_cases hk : piece = key
    · simp only [hk, if_true, Option.some.injEq] at h
      subst hk; subst h
      exact List.mem_cons_self _ _
    · simp only [hk, if_false] at h
      exact List.mem_cons_of_mem _ (ih h)

theorem exactLoop_eq_none_iff (codes : QMap) (piece : QString) :
    exactLoop codes piece = none ↔ ∀ e ∈ codes, e.1 ≠ piece := by
  induction codes with
  | nil =>
    constructor
    · intro _ e he
      cases he
    · intro _
      rfl
  | cons e rest ih =>
    obtain ⟨key, c⟩ := e
    unfold exactLoop
    by_cases hk : piece = key
    · subst hk
      simp only [if_true]
      constructor
      · intro h
        cases h
      · intro h
        exact absurd rfl (h (piece, c) (List.mem_cons_self _ _))
    · simp only [hk, if_false, ih, List.mem_cons, forall_eq_or_imp, ne_eq]
      constructor
      · intro h
        exact ⟨fun h2 => hk h2.symm, h⟩
      · intro h
        exact h.2

theorem exactLoop_some_viable {codes : QMap} {piece : QString} {cb : Callback}
    (h : exactLoop codes piece = some cb) : Viable codes piece :=
  ⟨(piece, cb), exactLoop_some_mem h, List.prefix_refl _⟩

theorem exactLoop_isSome_of_mem {codes : QMap} {p : QString} {cb : Callback}
    (h : (p, cb) ∈ codes) : ∃ cb2, exactLoop codes p = some cb2 := by
  cases hx : exactLoop codes p with
  | none => exact absurd rfl ((exactLoop_eq_none_iff codes p).1 hx _ h)
  | some c => exact ⟨c, rfl⟩

/-! ## The longest viable suffix -/

theorem pending_suffix (codes : QMap) (s : QString) : pending codes s <:+ s := by
  induction s with
  | nil => exact List.suffix_refl _
  | cons c cs ih =>
    unfold pending
    split
    · exact List.suffix_refl _
    · exact ih.trans (List.suffix_cons _ _)

theorem pending_viable (codes : QMap) (s : QString) (h : pending codes s ≠ []) :
    Viable codes (pending codes s) := by
  induction s with
  | nil => simp [pending] at h
  | cons c cs ih =>
    unfold pending at h ⊢
    split
    · next hv => exact (viableLoop_iff _ _).1 hv
    · next hv =>
      simp only [hv] at h
      exact ih h

theorem pending_max (codes : QMap) (s t : QString) (hs : t <:+ s) (hne : t ≠ [])
    (hv : Viable codes t) : t <:+ pending codes s := by
  induction s with
  | nil =>
    exact absurd (List.suffix_nil.1 hs) hne
  | cons c cs ih =>
    unfold pending
    split
    · exact hs
    · next hnv =>
      rcases List.suffix_cons_iff.1 hs with rfl | h
      · exact absurd ((viableLoop_iff _ _).2 hv) hnv
      · exact ih h

theorem pending_of_viable (codes : QMap) (s : QString) (hne : s ≠ [])
    (hv : Viable codes s) : pending codes s = s := by
  have h1 := pending_max codes s s (List.suffix_refl _) hne hv
  have h2 := pending_suffix codes s
  exact List.IsSuffix.eq_of_length_le h2 (List.IsSuffix.length_le h1)

theorem pending_eq_nil_iff (codes : QMap) (s : QString) :
    pending codes s = [] ↔ ∀ t, t <:+ s → t ≠ [] → ¬ Viable codes t := by
  constructor
  · intro h t ht hne hv
    have := pending_max codes s t ht hne hv
    rw [h] at this
    exact hne (List.suffix_nil.1 this)
  · intro h
    by_contra hne
    exact h _ (pending_suffix codes s) hne (pending_viable codes s hne)

theorem Viable.of_append {codes : QMap} {y x : QString} (h : Viable codes (y ++ x)) :
    Viable codes y := by
  obtain ⟨e, he, hp⟩ := h
  exact ⟨e, he, (List.prefix_append y x).trans hp⟩

theorem suffix_append_cases {t s x : QString} (h : t <:+ s ++ x) :
    t <:+ x ∨ ∃ y, t = y ++ x ∧ y <:+ s := by
  induction s with
  | nil => exact Or.inl h
  | cons a s ih =>
    rcases List.suffix_cons_iff.1 h with rfl | h2
    · exact Or.inr ⟨a :: s, rfl, List.suffix_refl _⟩
    · rcases ih h2 with h3 | ⟨y, hy, hys⟩
      · exact Or.inl h3
      · exact Or.inr ⟨y, hy, hys.trans (List.suffix_cons _ _)⟩

theorem pending_append (codes : QMap) (s x : QString) :
    pending codes (pending codes s ++ x) = pending codes (s ++ x) := by
  have hsuf : pending codes s ++ x <:+ s ++ x := by
    obtain ⟨t, ht⟩ := pending_suffix codes s
    exact ⟨t, by rw [← List.append_assoc, ht]⟩
  -- each of the two is a suffix of the other
  have h1 : pending codes (pending codes s ++ x) <:+ pending codes (s ++ x) := by
    by_cases hne : pending codes (pending codes s ++ x) = []
    · rw [hne]
      exact List.nil_suffix
    · exact pending_max codes _ _ ((pending_suffix codes _).trans hsuf) hne
        (pending_viable codes _ hne)
  have h2 : pending codes (s ++ x) <:+ pending codes (pending codes s ++ x) := by
    by_cases hne : pending codes (s ++ x) = []
    · rw [hne]
      exact List.nil_suffix
    · refine pending_max codes _ _ ?_ hne (pending_viable codes _ hne)
      rcases suffix_append_cases (pending_suffix codes (s ++ x)) with h | ⟨y, hy, hys⟩
      · exact h.trans (List.suffix_append _ _)
      · rw [hy]
        have hyv : Viable codes y := by
          have := pending_viable codes _ hne
          rw [hy] at this
          exact this.of_append
        by_cases hynil : y = []
        · subst hynil
          exact List.suffix_append _ _
        · obtain ⟨t, ht⟩ := pending_max codes s y hys hynil hyv
          exact ⟨t, by rw [← List.append_assoc, ht]⟩
  exact List.IsSuffix.eq_of_length_le h1 (List.IsSuffix.length_le h2)

/-! ## The `while` loop computes the longest viable suffix -/

theorem whileLoop_eq (codes : QMap) (B : QString) :
    ∀ (n from_ : Nat), B.length - from_ = n → from_ ≤ B.length →
      whileLoop codes B B.length from_ =
        (match pending codes (B.drop from_) with
         | [] => (B.length, [])
         | c :: cs =>
           match exactLoop codes (c :: cs) with
           | some callback => (B.length, [⟨callback, B⟩])
           | none => (B.length - (c :: cs).length, [])) := by
  intro n
  induction n with
  | zero =>
    intro from_ hn hle
    have hfrom : from_ = B.length := by omega
    subst hfrom
    rw [whileLoop]
    simp [pending]
  | succ n ih =>
    intro from_ hn hle
    have hlt : from_ < B.length := by omega
    have hdrop : B.drop from_ = B[from_] :: B.drop (from_ + 1) :=
      List.drop_eq_getElem_cons hlt
    rw [whileLoop]
    simp only [gt_iff_lt, hlt, if_true]
    rw [hdrop]
    cases hx : exactLoop codes (B[from_] :: B.drop (from_ + 1)) with
    | some cb =>
      have hv := (viableLoop_iff _ _).2 (exactLoop_some_viable hx)
      simp only [pending, hv, if_true, hx]
    | none =>
      by_cases hv : viableLoop codes (B[from_] :: B.drop (from_ + 1)) = true
      · simp only [pending, hv, if_true, hx]
        have hlen : (B[from_] :: B.drop (from_ + 1)).length = B.length - from_ := by
          rw [← hdrop, List.length_drop]
        rw [hlen]
        congr 1
        omega
      · simp only [pending, hv, if_false, Bool.false_eq_true]
        exact ih (from_ + 1) (by omega) (by omega)

theorem codesFeedString_eq (toLower : QString → QString) (g : Globals) (text : QString) :
    codesFeedString toLower g text =
      (⟨(outcome (ensureCodes g.Codes) (g.SecretText ++ toLower text)).1,
          ensureCodes g.Codes⟩,
        (outcome (ensureCodes g.Codes) (g.SecretText ++ toLower text)).2) := by
  unfold codesFeedString outcome
  simp only []
  rw [whileLoop_eq _ _ _ 0 rfl (Nat.zero_le _)]
  rw [List.drop_zero]
  have hsuf := pending_suffix (ensureCodes g.Codes) (g.SecretText ++ toLower text)
  generalize hB : g.SecretText ++ toLower text = B at *
  cases hp : pending (ensureCodes g.Codes) B with
  | nil => simp
  | cons c cs =>
    rw [hp] at hsuf
    cases hx : exactLoop (ensureCodes g.Codes) (c :: cs) with
    | some cb => simp [hx]
    | none =>
      have hlen := List.IsSuffix.length_le hsuf
      have hlen2 : 0 < (c :: cs).length := by simp
      have hd : B.drop (B.length - (c :: cs).length) = c :: cs := by
        obtain ⟨t, ht⟩ := hsuf
        rw [← ht]
        simp
      have hlt : B.length > B.length - (c :: cs).length := by omega
      simp only [hx, hlt, if_true, hd]

/-! ## One call, read off the longest viable suffix -/

theorem fillCodes_nil_ne_nil : fillCodes [] ≠ [] := by decide

theorem ensureCodes_ne_nil (codes : QMap) : ensureCodes codes ≠ [] := by
  unfold ensureCodes
  cases codes with
  | nil => exact fillCodes_nil_ne_nil
  | cons e rest => simp

theorem ensureCodes_of_ne_nil {codes : QMap} (h : codes ≠ []) : ensureCodes codes = codes := by
  unfold ensureCodes
  cases codes with
  | nil => exact absurd rfl h
  | cons e rest => simp

theorem ensureCodes_idem (codes : QMap) : ensureCodes (ensureCodes codes) = ensureCodes codes :=
  ensureCodes_of_ne_nil (ensureCodes_ne_nil codes)

theorem outcome_of_nil {codes : QMap} {B : QString} (h : pending codes B = []) :
    outcome codes B = ([], []) := by
  unfold outcome
  rw [h]

theorem outcome_of_exact {codes : QMap} {B p : QString} {cb : Callback}
    (h : pending codes B = p) (hne : p ≠ []) (hx : exactLoop codes p = some cb) :
    outcome codes B = ([], [⟨cb, B⟩]) := by
  unfold outcome
  rw [h]
  cases p with
  | nil => exact absurd rfl hne
  | cons c cs => simp only [hx]

theorem outcome_of_none {codes : QMap} {B p : QString}
    (h : pending codes B = p) (hne : p ≠ []) (hx : exactLoop codes p = none) :
    outcome codes B = (p, []) := by
  unfold outcome
  rw [h]
  cases p with
  | nil => exact absurd rfl hne
  | cons c cs => simp only [hx]

/-- The three ways a scan can end. -/
theorem outcome_cases (codes : QMap) (B : QString) :
    (pending codes B = [] ∧ outcome codes B = ([], [])) ∨
    (∃ cb, pending codes B ≠ [] ∧ exactLoop codes (pending codes B) = some cb ∧
      outcome codes B = ([], [⟨cb, B⟩])) ∨
    (pending codes B ≠ [] ∧ exactLoop codes (pending codes B) = none ∧
      outcome codes B = (pending codes B, [])) := by
  by_cases hnil : pending codes B = []
  · exact Or.inl ⟨hnil, outcome_of_nil hnil⟩
  · cases hx : exactLoop codes (pending codes B) with
    | some cb => exact Or.inr (Or.inl ⟨cb, hnil, rfl, outcome_of_exact rfl hnil hx⟩)
    | none => exact Or.inr (Or.inr ⟨hnil, rfl, outcome_of_none rfl hnil hx⟩)

/-- Pruning the history to its longest viable suffix changes neither what the next scan
keeps nor which callback it invokes. -/
theorem outcome_pending_append (codes : QMap) (H x : QString) :
    (outcome codes (pending codes H ++ x)).1 = (outcome codes (H ++ x)).1 ∧
    (outcome codes (pending codes H ++ x)).2.map Invocation.callback =
      (outcome codes (H ++ x)).2.map Invocation.callback := by
  have hp := pending_append codes H x
  rcases outcome_cases codes (H ++ x) with ⟨h, ho⟩ | ⟨cb, h, hx, ho⟩ | ⟨h, hx, ho⟩
  · rw [ho, outcome_of_nil (hp.trans h)]
    exact ⟨rfl, rfl⟩
  · rw [ho, outcome_of_exact hp h hx]
    exact ⟨rfl, rfl⟩
  · rw [ho, outcome_of_none hp h hx]
    exact ⟨rfl, rfl⟩

theorem outcome_quiet {codes : QMap} {B : QString} (h : (outcome codes B).2 = []) :
    (outcome codes B).1 = pending codes B := by
  rcases outcome_cases codes B with ⟨h1, ho⟩ | ⟨cb, _, _, ho⟩ | ⟨_, _, ho⟩
  · rw [ho, h1]
  · rw [ho] at h
    cases h
  · rw [ho]

theorem outcome_fired {codes : QMap} {B : QString} (h : (outcome codes B).2 ≠ []) :
    (outcome codes B).1 = [] := by
  rcases outcome_cases codes B with ⟨_, ho⟩ | ⟨cb, _, _, ho⟩ | ⟨_, _, ho⟩
  · rw [ho]
  · rw [ho]
  · rw [ho] at h
    exact absurd rfl h

/-- The stop offset of the scan: the least offset whose suffix some key begins with. -/
theorem pending_eq_drop {codes : QMap} {B : QString} {s : Nat} (hs : s < B.length)
    (hv : Viable codes (B.drop s)) (hmin : ∀ s2, s2 < s → ¬ Viable codes (B.drop s2)) :
    pending codes B = B.drop s := by
  have hne : B.drop s ≠ [] := by
    intro h
    have := congrArg List.length h
    simp at this
    omega
  have h1 := pending_max codes B (B.drop s) (List.drop_suffix s B) hne hv
  have hpne : pending codes B ≠ [] := by
    intro h
    rw [h] at h1
    exact hne (List.suffix_nil.1 h1)
  have h2 := List.suffix_iff_eq_drop.1 (pending_suffix codes B)
  have hle := List.IsSuffix.length_le (pending_suffix codes B)
  have hpv := pending_viable codes B hpne
  have hge : s ≤ B.length - (pending codes B).length := by
    by_contra hlt
    rw [h2] at hpv
    exact hmin _ (by omega) hpv
  refine (List.IsSuffix.eq_of_length_le h1 ?_).symm
  rw [List.length_drop]
  omega

theorem pending_nil_of_no_offset {codes : QMap} {B : QString}
    (h : ∀ s, s < B.length → ¬ Viable codes (B.drop s)) : pending codes B = [] := by
  rw [pending_eq_nil_iff]
  intro t ht hne hv
  have hlen : 0 < t.length := List.length_pos.2 hne
  have hle := List.IsSuffix.length_le ht
  rw [List.suffix_iff_eq_drop.1 ht] at hv
  exact h _ (by omega) hv

/-! ## Sequences of calls -/

theorem codesFeedString_codes (toLower : QString → QString) (g : Globals) (text : QString) :
    (codesFeedString toLower g text).1.Codes = ensureCodes g.Codes := rfl

theorem codesFeedString_congr (toLower : QString → QString) {g h : Globals}
    (hs : g.SecretText = h.SecretText) (hc : ensureCodes g.Codes = ensureCodes h.Codes)
    (text : QString) : codesFeedString toLower g text = codesFeedString toLower h text := by
  rw [codesFeedString_eq, codesFeedString_eq, hs, hc]

theorem globalsAfter_nil (toLower : QString → QString) (g : Globals) :
    globalsAfter toLower g [] = g := rfl

theorem globalsAfter_cons (toLower : QString → QString) (g : Globals) (text : QString)
    (rest : List QString) :
    globalsAfter toLower g (text :: rest) =
      globalsAfter toLower (codesFeedString toLower g text).1 rest := rfl

theorem globalsAfter_append (toLower : QString → QString) (g : Globals)
    (a b : List QString) :
    globalsAfter toLower g (a ++ b) = globalsAfter toLower (globalsAfter toLower g a) b := by
  unfold globalsAfter
  rw [List.foldl_append]

theorem globalsAfter_concat (toLower : QString → QString) (g : Globals)
    (a : List QString) (text : QString) :
    globalsAfter toLower g (a ++ [text]) =
      (codesFeedString toLower (globalsAfter toLower g a) text).1 := by
  rw [globalsAfter_append]
  rfl

theorem globalsAfter_ensureCodes (toLower : QString → QString) (g : Globals)
    (texts : List QString) :
    ensureCodes (globalsAfter toLower g texts).Codes = ensureCodes g.Codes := by
  induction texts generalizing g with
  | nil => rfl
  | cons text rest ih =>
    rw [globalsAfter_cons, ih, codesFeedString_codes, ensureCodes_idem]

theorem keyPressEvents_append (toLower : QString → QString) (g : Globals)
    (a b : List QString) :
    keyPressEvents toLower g (a ++ b) =
      keyPressEvents toLower g a ++ keyPressEvents toLower (globalsAfter toLower g a) b := by
  induction a generalizing g with
  | nil => rfl
  | cons text rest ih =>
    rw [List.cons_append, globalsAfter_cons]
    show codesFeedString toLower g text ::
        keyPressEvents toLower (codesFeedString toLower g text).1 (rest ++ b) = _
    rw [ih]
    rfl

theorem keyPressEvents_length (toLower : QString → QString) (g : Globals)
    (texts : List QString) : (keyPressEvents toLower g texts).length = texts.length := by
  induction texts generalizing g with
  | nil => rfl
  | cons text rest ih => simp only [keyPressEvents, List.length_cons, ih]

/-- What a call keeps is empty or the beginning of a key of the map it leaves. -/
theorem codesFeedString_secretText (toLower : QString → QString) (g : Globals)
    (text : QString) :
    (codesFeedString toLower g text).1.SecretText = [] ∨
      ∃ e ∈ (codesFeedString toLower g text).1.Codes,
        (codesFeedString toLower g text).1.SecretText <+: e.1 := by
  rw [codesFeedString_eq]
  simp only
  rcases outcome_cases (ensureCodes g.Codes) (g.SecretText ++ toLower text) with
    ⟨_, ho⟩ | ⟨cb, _, _, ho⟩ | ⟨hne, _, ho⟩
  · rw [ho]
    exact Or.inl rfl
  · rw [ho]
    exact Or.inl rfl
  · rw [ho]
    exact Or.inr (pending_viable _ _ hne)

theorem whileLoop_snd (codes : QMap) (B : QString) :
    (whileLoop codes B B.length 0).2 = (outcome codes B).2 := by
  rw [whileLoop_eq codes B _ 0 rfl (Nat.zero_le _), List.drop_zero]
  unfold outcome
  cases pending codes B with
  | nil => rfl
  | cons c cs =>
    simp only
    cases exactLoop codes (c :: cs) <;> rfl

theorem referenceFeed_eq (toLower : QString → QString) (codes : QMap)
    (retained text : QString) :
    referenceFeed toLower codes retained text =
      (if (outcome codes (retained ++ toLower text)).2 = [] then retained ++ toLower text
        else [],
       (outcome codes (retained ++ toLower text)).2) := by
  unfold referenceFeed
  simp only [whileLoop_snd]

theorem map_callback_eq_nil_iff {a b : List Invocation}
    (h : a.map Invocation.callback = b.map Invocation.callback) : a = [] ↔ b = [] := by
  constructor
  · intro ha
    subst ha
    exact List.map_eq_nil_iff.1 h.symm
  · intro hb
    subst hb
    exact List.map_eq_nil_iff.1 h

/-- One call from a pruned buffer against one call from the full history. -/
theorem codesFeedString_pruned (toLower : QString → QString) (g : Globals)
    (H text : QString) (hg : g.SecretText = pending (ensureCodes g.Codes) H) :
    (codesFeedString toLower g text).1.SecretText =
        (outcome (ensureCodes g.Codes) (H ++ toLower text)).1 ∧
      (codesFeedString toLower g text).2.map Invocation.callback =
        (outcome (ensureCodes g.Codes) (H ++ toLower text)).2.map Invocation.callback ∧
      ((codesFeedString toLower g text).2 = [] ↔
        (outcome (ensureCodes g.Codes) (H ++ toLower text)).2 = []) := by
  rw [codesFeedString_eq, hg]
  have h := outcome_pending_append (ensureCodes g.Codes) H (toLower text)
  exact ⟨h.1, h.2, map_callback_eq_nil_iff h.2⟩

/-- After a call, `SecretText` is the longest viable suffix of the history kept by a
recognizer that forgets the history exactly when a callback is invoked. -/
theorem codesFeedString_pruned_next (toLower : QString → QString) (g : Globals)
    (H text : QString) (hg : g.SecretText = pending (ensureCodes g.Codes) H) :
    (codesFeedString toLower g text).1.SecretText =
      pending (ensureCodes g.Codes)
        (if (codesFeedString toLower g text).2 = [] then H ++ toLower text else []) := by
  obtain ⟨h1, _, h3⟩ := codesFeedString_pruned toLower g H text hg
  rw [h1]
  by_cases hq : (codesFeedString toLower g text).2 = []
  · rw [if_pos hq]
    exact outcome_quiet (h3.1 hq)
  · rw [if_neg hq]
    exact outcome_fired (fun h => hq (h3.2 h))

theorem typedSinceFiring_spec (toLower : QString → QString) (texts : List QString) :
    ∀ (g : Globals) (acc : QString), g.SecretText = pending (ensureCodes g.Codes) acc →
      (globalsAfter toLower g texts).SecretText =
        pending (ensureCodes g.Codes) (typedSinceFiring toLower g acc texts) := by
  induction texts with
  | nil =>
    intro g acc hg
    exact hg
  | cons text rest ih =>
    intro g acc hg
    rw [globalsAfter_cons]
    unfold typedSinceFiring
    simp only
    have hnext := codesFeedString_pruned_next toLower g acc text hg
    have hc : ensureCodes (codesFeedString toLower g text).1.Codes = ensureCodes g.Codes := by
      rw [codesFeedString_codes, ensureCodes_idem]
    rw [← hc] at hnext ⊢
    exact ih _ _ hnext

/-! ## Properties of a single call -/

/-- C1: with `B = SecretText ++ toLower text` and `codes` the map after line 116, let `s` be
the least offset below the length of `B` whose suffix `B.drop s` is the beginning of some
key.  If there is no such offset, no callback is invoked and `SecretText` becomes empty.
If `B.drop s` is a key, the callback the map holds for it is invoked, once, and nothing
else, and `SecretText` becomes empty.  Otherwise no callback is invoked and `SecretText`
becomes exactly `B.drop s`. -/
theorem codesFeedString_longest_viable_suffix (toLower : QString → QString) (g : Globals)
    (text B : QString) (codes : QMap) (hB : B = g.SecretText ++ toLower text)
    (hcodes : codes = ensureCodes g.Codes) :
    ((∀ s, s < B.length → ¬ Viable codes (B.drop s)) →
      codesFeedString toLower g text = (⟨[], codes⟩, [])) ∧
    (∀ s, s < B.length → Viable codes (B.drop s) →
      (∀ s2, s2 < s → ¬ Viable codes (B.drop s2)) →
      (∀ cb, codes.lookup (B.drop s) = some cb →
        codesFeedString toLower g text = (⟨[], codes⟩, [⟨cb, B⟩])) ∧
      ((∀ e ∈ codes, e.1 ≠ B.drop s) →
        codesFeedString toLower g text = (⟨B.drop s, codes⟩, []))) := by
  subst hcodes
  rw [codesFeedString_eq, ← hB]
  refine ⟨fun hno => ?_, fun s hs hv hmin => ?_⟩
  · rw [outcome_of_nil (pending_nil_of_no_offset hno)]
  · have hp := pending_eq_drop hs hv hmin
    have hne : B.drop s ≠ [] := by
      intro h
      have := congrArg List.length h
      simp at this
      omega
    refine ⟨fun cb hcb => ?_, fun hnone => ?_⟩
    · rw [← exactLoop_eq_lookup] at hcb
      rw [outcome_of_exact hp hne hcb]
    · rw [outcome_of_none hp hne ((exactLoop_eq_none_iff _ _).2 hnone)]

/-- C1, at `SecretText = "xa"`, text `"B"` and the map `{"ab", "abc"}`: the scan stops at
offset 1, where the suffix `"ab"` is a key. -/
theorem codesFeedString_longest_viable_suffix_witness :
    codesFeedString asciiToLower ⟨qsl "xa", codesAbAbc⟩ (qsl "B") =
      (⟨[], codesAbAbc⟩, [⟨Callback.other 0, qsl "xab"⟩]) :=
  ((codesFeedString_longest_viable_suffix asciiToLower ⟨qsl "xa", codesAbAbc⟩ (qsl "B")
      (qsl "xab") codesAbAbc (by decide) (by decide)).2 1 (by decide) (by decide)
      (by decide)).1 (Callback.other 0) (by decide)

/-- C5, as the code has it: a callback is entered while `SecretText` still holds the whole
working buffer `SecretText ++ toLower text`, which is not empty; `SecretText` is empty only
once the call has returned. -/
theorem callback_sees_working_buffer (toLower : QString → QString) (g : Globals)
    (text : QString) (inv : Invocation) (h : inv ∈ (codesFeedString toLower g text).2) :
    inv.secretText = g.SecretText ++ toLower text ∧ inv.secretText ≠ [] ∧
      (codesFeedString toLower g text).1.SecretText = [] := by
  rw [codesFeedString_eq] at h ⊢
  simp only at h ⊢
  rcases outcome_cases (ensureCodes g.Codes) (g.SecretText ++ toLower text) with
    ⟨_, ho⟩ | ⟨cb, hne, _, ho⟩ | ⟨_, _, ho⟩
  · rw [ho] at h
    cases h
  · rw [ho] at h ⊢
    have hinv : inv = ⟨cb, g.SecretText ++ toLower text⟩ := by simpa using h
    subst hinv
    refine ⟨rfl, ?_, rfl⟩
    intro hnil
    simp only at hnil
    rw [hnil] at hne
    exact hne rfl
  · rw [ho] at h
    cases h

/-- C5, at the built-in codes, an empty `SecretText` and the text `"xxcrashplease"`. -/
theorem callback_sees_working_buffer_witness :
    (⟨Callback.crashplease, qsl "xxcrashplease"⟩ : Invocation).secretText =
        [] ++ asciiToLower (qsl "xxcrashplease") ∧
      (⟨Callback.crashplease, qsl "xxcrashplease"⟩ : Invocation).secretText ≠ [] ∧
      (codesFeedString asciiToLower ⟨[], []⟩ (qsl "xxcrashplease")).1.SecretText = [] :=
  callback_sees_working_buffer asciiToLower ⟨[], []⟩ (qsl "xxcrashplease")
    ⟨Callback.crashplease, qsl "xxcrashplease"⟩ (by rw [codesFeedString_eq]; decide)

/-- C5 fails as stated: typing `crashplease` after two other characters, the callback of
`crashplease` is entered while `SecretText` holds `"xxcrashplease"`, not the empty string. -/
theorem callback_sees_empty_buffer_counterexample :
    codesFeedString asciiToLower ⟨[], []⟩ (qsl "xxcrashplease") =
        (⟨[], fillCodes []⟩, [⟨Callback.crashplease, qsl "xxcrashplease"⟩]) ∧
      qsl "xxcrashplease" ≠ [] := by
  rw [codesFeedString_eq]
  decide

/-- C9: when the working buffer `SecretText ++ toLower text` ends with a (non-empty) key
`p` of maximal length, the call invokes the callback of `p`, once, and nothing else, and
leaves `SecretText` empty: whatever stands before `p` is discarded within the call. -/
theorem longest_phrase_fires_despite_junk (toLower : QString → QString) (g : Globals)
    (text p : QString) (cb : Callback)
    (hreg : (ensureCodes g.Codes).lookup p = some cb) (hne : p ≠ [])
    (hmax : ∀ e ∈ ensureCodes g.Codes, e.1.length ≤ p.length)
    (hend : p <:+ g.SecretText ++ toLower text) :
    codesFeedString toLower g text =
      (⟨[], ensureCodes g.Codes⟩, [⟨cb, g.SecretText ++ toLower text⟩]) := by
  rw [codesFeedString_eq]
  rw [← exactLoop_eq_lookup] at hreg
  have hv := exactLoop_some_viable hreg
  have h1 := pending_max _ _ _ hend hne hv
  have hpne : pending (ensureCodes g.Codes) (g.SecretText ++ toLower text) ≠ [] := by
    intro h
    rw [h] at h1
    exact hne (List.suffix_nil.1 h1)
  obtain ⟨e, he, hpre⟩ := pending_viable _ _ hpne
  have hp : pending (ensureCodes g.Codes) (g.SecretText ++ toLower text) = p :=
    (List.IsSuffix.eq_of_length_le h1
      ((List.IsPrefix.length_le hpre).trans (hmax e he))).symm
  rw [outcome_of_exact hp hne hreg]

/-- C9, at the map `{"abc": A}`, an empty `SecretText` and the text `"xyzabc"`. -/
theorem longest_phrase_fires_despite_junk_witness :
    codesFeedString asciiToLower ⟨[], codesAbc⟩ (qsl "xyzabc") =
      (⟨[], ensureCodes codesAbc⟩, [⟨Callback.other 0, [] ++ asciiToLower (qsl "xyzabc")⟩]) :=
  longest_phrase_fires_despite_junk asciiToLower ⟨[], codesAbc⟩ (qsl "xyzabc") (qsl "abc")
    (Callback.other 0) (by decide) (by decide) (by decide) (by decide)

/-- C10: when no non-empty suffix of the working buffer `SecretText ++ toLower text` is
the beginning of a key, the call invokes no callback and leaves `SecretText` empty. -/
theorem drains_to_empty (toLower : QString → QString) (g : Globals) (text : QString)
    (h : ∀ t, t <:+ g.SecretText ++ toLower text → t ≠ [] →
      ¬ Viable (ensureCodes g.Codes) t) :
    codesFeedString toLower g text = (⟨[], ensureCodes g.Codes⟩, []) := by
  rw [codesFeedString_eq, outcome_of_nil ((pending_eq_nil_iff _ _).2 h)]

/-- C10, at the map `{"abc"}` fed `"xyzxyzxyz"`, and at the map `{"ab", "ax"}` holding `"a"`
and fed `"z"`. -/
theorem drains_to_empty_witness :
    codesFeedString asciiToLower ⟨[], codesAbc⟩ (qsl "xyzxyzxyz") =
        (⟨[], ensureCodes codesAbc⟩, []) ∧
      codesFeedString asciiToLower ⟨qsl "a", codesAbAx⟩ (qsl "z") =
        (⟨[], ensureCodes codesAbAx⟩, []) :=
  ⟨drains_to_empty asciiToLower ⟨[], codesAbc⟩ (qsl "xyzxyzxyz")
      ((pending_eq_nil_iff _ _).1 (by decide)),
    drains_to_empty asciiToLower ⟨qsl "a", codesAbAx⟩ (qsl "z")
      ((pending_eq_nil_iff _ _).1 (by decide))⟩

/-! ## Properties of sequences of calls -/

/-- C4: in every state reached from an empty `SecretText` by any sequence of calls of
`codesFeedString`, `SecretText` is empty or the beginning of at least one key of `Codes`. -/
theorem secretText_empty_or_viable (toLower : QString → QString) (codes : QMap)
    (texts : List QString) :
    (globalsAfter toLower ⟨[], codes⟩ texts).SecretText = [] ∨
      ∃ e ∈ (globalsAfter toLower ⟨[], codes⟩ texts).Codes,
        (globalsAfter toLower ⟨[], codes⟩ texts).SecretText <+: e.1 := by
  rcases List.eq_nil_or_concat texts with rfl | ⟨init, text, rfl⟩
  · exact Or.inl rfl
  · rw [List.concat_eq_append, globalsAfter_concat]
    exact codesFeedString_secretText _ _ _

theorem lossless_from (toLower : QString → QString) (texts : List QString) :
    ∀ (g : Globals) (R : QString), g.SecretText = pending (ensureCodes g.Codes) R →
      List.Forall₂
        (fun r q => r.2.map Invocation.callback = q.2.map Invocation.callback ∧
          r.1.SecretText <:+ q.1)
        (keyPressEvents toLower g texts)
        (referenceEvents toLower (ensureCodes g.Codes) R texts) := by
  induction texts with
  | nil =>
    intro g R _
    exact List.Forall₂.nil
  | cons text rest ih =>
    intro g R hg
    obtain ⟨_, h2, h3⟩ := codesFeedString_pruned toLower g R text hg
    have hnext := codesFeedString_pruned_next toLower g R text hg
    have hc : ensureCodes (codesFeedString toLower g text).1.Codes = ensureCodes g.Codes := by
      rw [codesFeedString_codes, ensureCodes_idem]
    have href : referenceFeed toLower (ensureCodes g.Codes) R text =
        (if (codesFeedString toLower g text).2 = [] then R ++ toLower text else [],
          (outcome (ensureCodes g.Codes) (R ++ toLower text)).2) := by
      rw [referenceFeed_eq]
      by_cases hq : (codesFeedString toLower g text).2 = []
      · rw [if_pos hq, if_pos (h3.1 hq)]
      · rw [if_neg hq, if_neg (fun h => hq (h3.2 h))]
    unfold keyPressEvents referenceEvents
    simp only
    refine List.Forall₂.cons ⟨?_, ?_⟩ ?_
    · rw [href]
      exact h2
    · rw [href, hnext]
      exact pending_suffix _ _
    · rw [href]
      rw [← hc] at hnext ⊢
      exact ih _ _ hnext

/-- C6: call by call, `codesFeedString` (which keeps only the pruned `SecretText`) invokes
the same callbacks as the reference recognizer that never drops leading characters, and
after every call `SecretText` is a suffix of the text the reference recognizer retains. -/
theorem pruning_is_lossless (toLower : QString → QString) (codes : QMap)
    (texts : List QString) :
    List.Forall₂
      (fun r q => r.2.map Invocation.callback = q.2.map Invocation.callback ∧
        r.1.SecretText <:+ q.1)
      (keyPressEvents toLower ⟨[], codes⟩ texts)
      (referenceEvents toLower (ensureCodes codes) [] texts) :=
  lossless_from toLower texts ⟨[], codes⟩ [] rfl

/-- C7 fails as stated: with the map `{"abcd", "bc"}`, after the calls `"a"`, `"b"`, `"c"`
the text fed so far ends with the key `"bc"`, and no call has invoked a callback: `"abc"`
is kept as the beginning of `"abcd"`. -/
theorem completeness_counterexample :
    keyPressEvents asciiToLower ⟨[], codesAbcdBc⟩ [qsl "a", qsl "b", qsl "c"] =
        [(⟨qsl "a", codesAbcdBc⟩, []), (⟨qsl "ab", codesAbcdBc⟩, []),
          (⟨qsl "abc", codesAbcdBc⟩, [])] ∧
      qsl "bc" <:+ asciiToLower (qsl "a") ++ asciiToLower (qsl "b") ++ asciiToLower (qsl "c") ∧
      codesAbcdBc.lookup (qsl "bc") = some (Callback.other 1) := by
  simp only [keyPressEvents, codesFeedString_eq]
  decide

/-- C7, as the code has it: when the lower-cased text fed since the last firing, the text
of the present call included, ends with a non-empty key `p`, and no longer suffix of it is
the beginning of a key, the present call invokes the callback of `p`, once, and nothing
else, and leaves `SecretText` empty. -/
theorem completed_phrase_fires (toLower : QString → QString) (codes : QMap)
    (texts : List QString) (text p : QString) (cb : Callback)
    (hreg : (ensureCodes codes).lookup p = some cb) (hne : p ≠ [])
    (hend : p <:+ typedSinceFiring toLower ⟨[], codes⟩ [] texts ++ toLower text)
    (hlongest : ∀ t, t <:+ typedSinceFiring toLower ⟨[], codes⟩ [] texts ++ toLower text →
      p.length < t.length → ¬ Viable (ensureCodes codes) t) :
    (codesFeedString toLower (globalsAfter toLower ⟨[], codes⟩ texts) text).2.map
        Invocation.callback = [cb] ∧
      (codesFeedString toLower (globalsAfter toLower ⟨[], codes⟩ texts) text).1.SecretText
        = [] := by
  have hstate := typedSinceFiring_spec toLower texts ⟨[], codes⟩ [] rfl
  have hc := globalsAfter_ensureCodes toLower ⟨[], codes⟩ texts
  simp only at hstate hc
  rw [← hc] at hstate
  obtain ⟨h1, h2, _⟩ := codesFeedString_pruned toLower _ _ text hstate
  rw [hc] at h1 h2
  rw [← exactLoop_eq_lookup] at hreg
  generalize typedSinceFiring toLower ⟨[], codes⟩ [] texts ++ toLower text = T at *
  have hv := exactLoop_some_viable hreg
  have hsuf := pending_max _ _ _ hend hne hv
  have hpne : pending (ensureCodes codes) T ≠ [] := by
    intro h
    rw [h] at hsuf
    exact hne (List.suffix_nil.1 hsuf)
  have hp : pending (ensureCodes codes) T = p := by
    refine (List.IsSuffix.eq_of_length_le hsuf ?_).symm
    by_contra hlt
    exact hlongest _ (pending_suffix _ _) (by omega) (pending_viable _ _ hpne)
  rw [outcome_of_exact hp hne hreg] at h1 h2
  exact ⟨h2, h1⟩

/-- C7 as amended, at the map `{"abcd", "bc"}`: after the calls `"x"` and `"b"`, the call
`"c"` completes `"bc"`. -/
theorem completed_phrase_fires_witness :
    (codesFeedString asciiToLower
        (globalsAfter asciiToLower ⟨[], codesAbcdBc⟩ [qsl "x", qsl "b"]) (qsl "c")).2.map
        Invocation.callback = [Callback.other 1] ∧
      (codesFeedString asciiToLower
        (globalsAfter asciiToLower ⟨[], codesAbcdBc⟩ [qsl "x", qsl "b"])
        (qsl "c")).1.SecretText = [] :=
  completed_phrase_fires asciiToLower codesAbcdBc [qsl "x", qsl "b"] (qsl "c") (qsl "bc")
    (Callback.other 1) (by decide) (by decide)
    (by simp only [typedSinceFiring, codesFeedString_eq]; decide)
    (by
      have hT : typedSinceFiring asciiToLower ⟨[], codesAbcdBc⟩ [] [qsl "x", qsl "b"] ++
          asciiToLower (qsl "c") = qsl "xbc" := by
        simp only [typedSinceFiring, codesFeedString_eq]
        decide
      rw [hT]
      intro t ht hlen hv
      have hmax := pending_max _ _ _ ht (by intro h; subst h; simp at hlen) hv
      have hp : pending (ensureCodes codesAbcdBc) (qsl "xbc") = qsl "bc" := by decide
      rw [hp] at hmax
      have := List.IsSuffix.length_le hmax
      have h2 : (qsl "bc").length = 2 := by decide
      omega)

/-- C3 fails as stated: with the map `{"ab": A, "abc": B}` and an empty `SecretText`, the
second of the calls `"a"`, `"b"`, `"c"` invokes `A` and leaves `SecretText` empty (not
`"ab"`), and the third call invokes nothing. -/
theorem shorter_phrase_never_fires_counterexample :
    keyPressEvents asciiToLower ⟨[], codesAbAbc⟩ [qsl "a", qsl "b", qsl "c"] =
      [(⟨qsl "a", codesAbAbc⟩, []),
        (⟨[], codesAbAbc⟩, [⟨Callback.other 0, qsl "ab"⟩]),
        (⟨[], codesAbAbc⟩, [])] := by
  simp only [keyPressEvents, codesFeedString_eq]
  decide

/-- C3, as the code has it: with the map `{"ab": A, "abc": B}` and an empty `SecretText`,
of the calls `"a"`, `"b"`, `"c"` the second invokes `A` and empties `SecretText`, and `B`
is never invoked.  In general, when the piece at which the scan stops is a key `p`, the
callback of `p` is invoked and `SecretText` is emptied, also when `p` is the proper
beginning of a longer key `q`: the exact match is tried first. -/
theorem exact_match_wins_over_longer_phrase :
    firedCallbacks (keyPressEvents asciiToLower ⟨[], codesAbAbc⟩
        [qsl "a", qsl "b", qsl "c"]) = [Callback.other 0] ∧
      (keyPressEvents asciiToLower ⟨[], codesAbAbc⟩
        [qsl "a", qsl "b", qsl "c"]).map (fun r => r.1.SecretText) = [qsl "a", [], []] ∧
      ∀ (toLower : QString → QString) (g : Globals) (text p q : QString) (cb : Callback)
        (s : Nat), s < (g.SecretText ++ toLower text).length →
        (∀ s2, s2 < s → ¬ Viable (ensureCodes g.Codes) ((g.SecretText ++ toLower text).drop s2)) →
        (g.SecretText ++ toLower text).drop s = p →
        (ensureCodes g.Codes).lookup p = some cb →
        (∃ e ∈ ensureCodes g.Codes, e.1 = q) → p <+: q → p ≠ q →
        codesFeedString toLower g text =
          (⟨[], ensureCodes g.Codes⟩, [⟨cb, g.SecretText ++ toLower text⟩]) := by
  refine ⟨?_, ?_, ?_⟩
  · simp only [keyPressEvents, codesFeedString_eq]
    decide
  · simp only [keyPressEvents, codesFeedString_eq]
    decide
  · intro toLower g text p q cb s hs hmin hp hreg _ _ _
    rw [← exactLoop_eq_lookup] at hreg
    have hv : Viable (ensureCodes g.Codes) ((g.SecretText ++ toLower text).drop s) := by
      rw [hp]
      exact exactLoop_some_viable hreg
    have hpend := pending_eq_drop hs hv hmin
    rw [hp] at hpend
    have hne : p ≠ [] := by
      intro h
      rw [h] at hp
      have := congrArg List.length hp
      rw [List.length_drop] at this
      simp only [List.length_nil] at this
      omega
    rw [codesFeedString_eq, outcome_of_exact hpend hne hreg]

/-- C3 as amended, at the map `{"ab": A, "abc": B}`, `SecretText = "a"` and the text `"b"`:
the piece `"ab"` is a key and the proper beginning of the key `"abc"`, and `A` is invoked. -/
theorem exact_match_wins_over_longer_phrase_witness :
    codesFeedString asciiToLower ⟨qsl "a", codesAbAbc⟩ (qsl "b") =
      (⟨[], ensureCodes codesAbAbc⟩,
        [⟨Callback.other 0, qsl "a" ++ asciiToLower (qsl "b")⟩]) :=
  exact_match_wins_over_longer_phrase.2.2 asciiToLower ⟨qsl "a", codesAbAbc⟩ (qsl "b")
    (qsl "ab") (qsl "abc") (Callback.other 0) 0 (by decide) (by intro s2 h; omega)
    (by decide) (by decide) (by decide) (by decide) (by decide)

/-! ## Typing a text character by character -/

theorem perCharacter_concat (t : QString) (c : Char) :
    perCharacter (t ++ [c]) = perCharacter t ++ [[c]] := by
  unfold perCharacter
  rw [List.map_append]
  rfl

theorem toLower_nil {toLower : QString → QString}
    (hlow : ∀ a b, toLower (a ++ b) = toLower a ++ toLower b) : toLower [] = [] := by
  have h := congrArg List.length (hlow [] [])
  rw [List.append_nil, List.length_append] at h
  exact List.length_eq_zero.1 (by omega)

theorem flatten_toLower_perCharacter {toLower : QString → QString}
    (hlow : ∀ a b, toLower (a ++ b) = toLower a ++ toLower b) (t : QString) :
    ((perCharacter t).map toLower).flatten = toLower t := by
  induction t with
  | nil => exact (toLower_nil hlow).symm
  | cons c cs ih =>
    have h := hlow [c] cs
    rw [List.singleton_append] at h
    rw [h, ← ih]
    rfl

theorem typedSinceFiring_quiet (toLower : QString → QString) (texts : List QString) :
    ∀ (g : Globals) (acc : QString),
      (∀ r ∈ keyPressEvents toLower g texts, r.2 = []) →
      typedSinceFiring toLower g acc texts = acc ++ (texts.map toLower).flatten := by
  induction texts with
  | nil =>
    intro g acc _
    simp [typedSinceFiring]
  | cons text rest ih =>
    intro g acc hq
    unfold keyPressEvents at hq
    simp only [List.mem_cons, forall_eq_or_imp] at hq
    unfold typedSinceFiring
    simp only [hq.1, if_true]
    rw [ih _ _ hq.2]
    simp

theorem firedCallbacks_of_quiet {rs : List (Globals × List Invocation)}
    (h : ∀ r ∈ rs, r.2 = []) : firedCallbacks rs = [] := by
  induction rs with
  | nil => rfl
  | cons r rest ih =>
    simp only [List.mem_cons, forall_eq_or_imp] at h
    unfold firedCallbacks at ih ⊢
    rw [List.flatMap_cons, h.1, ih h.2]
    rfl

theorem firedCallbacks_append (a b : List (Globals × List Invocation)) :
    firedCallbacks (a ++ b) = firedCallbacks a ++ firedCallbacks b := by
  unfold firedCallbacks
  exact List.flatMap_append _ _ _

/-- C2 fails as stated: with the map `{"ab"}`, the text `"abab"` fed in one call invokes
the callback once, and fed one character per call it invokes the callback twice. -/
theorem granularity_counterexample :
    firedCallbacks (keyPressEvents asciiToLower ⟨[], codesAb⟩ [qsl "abab"]) =
        [Callback.other 0] ∧
      firedCallbacks (keyPressEvents asciiToLower ⟨[], codesAb⟩ (perCharacter (qsl "abab"))) =
        [Callback.other 0, Callback.other 0] := by
  simp only [perCharacter, qsl, String.toList, List.map, keyPressEvents, codesFeedString_eq]
  decide

/-- C2, as the code has it: when lower-casing acts fragment by fragment and feeding `t`
one character per call invokes no callback before the last call, feeding `t` in a single
call and feeding it one character per call from an empty `SecretText` leave the same
`SecretText` and invoke the same callbacks. -/
theorem one_call_eq_per_character_when_quiet (toLower : QString → QString)
    (codes : QMap) (t : QString)
    (hlow : ∀ a b, toLower (a ++ b) = toLower a ++ toLower b)
    (hquiet : ∀ r ∈ (keyPressEvents toLower ⟨[], codes⟩ (perCharacter t)).dropLast,
      r.2 = []) :
    (globalsAfter toLower ⟨[], codes⟩ [t]).SecretText =
        (globalsAfter toLower ⟨[], codes⟩ (perCharacter t)).SecretText ∧
      firedCallbacks (keyPressEvents toLower ⟨[], codes⟩ [t]) =
        firedCallbacks (keyPressEvents toLower ⟨[], codes⟩ (perCharacter t)) := by
  have hone : globalsAfter toLower ⟨[], codes⟩ [t] =
      (codesFeedString toLower ⟨[], codes⟩ t).1 := rfl
  have hone2 : firedCallbacks (keyPressEvents toLower ⟨[], codes⟩ [t]) =
      (codesFeedString toLower ⟨[], codes⟩ t).2.map Invocation.callback := by
    simp [keyPressEvents, firedCallbacks]
  rw [hone, hone2, codesFeedString_eq]
  simp only [List.nil_append]
  rcases List.eq_nil_or_concat t with rfl | ⟨init, c, rfl⟩
  · rw [toLower_nil hlow]
    exact ⟨rfl, rfl⟩
  · rw [List.concat_eq_append, perCharacter_concat, keyPressEvents_append] at hquiet
    rw [List.concat_eq_append, perCharacter_concat, keyPressEvents_append,
      globalsAfter_concat, firedCallbacks_append]
    have hlast : ∀ g : Globals, keyPressEvents toLower g [[c]] =
        [codesFeedString toLower g [c]] := fun _ => rfl
    rw [hlast] at hquiet ⊢
    rw [List.dropLast_concat] at hquiet
    rw [firedCallbacks_of_quiet hquiet, List.nil_append]
    have hstate := typedSinceFiring_spec toLower (perCharacter init) ⟨[], codes⟩ [] rfl
    rw [typedSinceFiring_quiet toLower _ _ _ hquiet, List.nil_append,
      flatten_toLower_perCharacter hlow] at hstate
    have hc := globalsAfter_ensureCodes toLower ⟨[], codes⟩ (perCharacter init)
    simp only at hstate hc
    rw [← hc] at hstate
    obtain ⟨h1, h2, _⟩ := codesFeedString_pruned toLower _ _ [c] hstate
    rw [hc, ← hlow] at h1 h2
    refine ⟨h1.symm, ?_⟩
    rw [← h2]
    simp [firedCallbacks]

/-- C2 as amended, at the map `{"ab"}` and the text `"xab"`: no callback is invoked before
the last character. -/
theorem one_call_eq_per_character_when_quiet_witness :
    (globalsAfter asciiToLower ⟨[], codesAb⟩ [qsl "xab"]).SecretText =
        (globalsAfter asciiToLower ⟨[], codesAb⟩ (perCharacter (qsl "xab"))).SecretText ∧
      firedCallbacks (keyPressEvents asciiToLower ⟨[], codesAb⟩ [qsl "xab"]) =
        firedCallbacks
          (keyPressEvents asciiToLower ⟨[], codesAb⟩ (perCharacter (qsl "xab"))) :=
  one_call_eq_per_character_when_quiet asciiToLower codesAb (qsl "xab")
    (fun a b => List.map_append _ a b)
    (by
      simp only [perCharacter, qsl, String.toList, List.map, keyPressEvents,
        codesFeedString_eq]
      decide)

theorem typing_step (toLower : QString → QString) (g : Globals) (p pre rest : QString)
    (x : Char) (cb : Callback)
    (hreg : (ensureCodes g.Codes).lookup p = some cb)
    (hlower : ∀ c ∈ p, toLower [c] = [c])
    (hproper : ∀ e ∈ ensureCodes g.Codes, e.1 <+: p → e.1 = p)
    (hp : pre ++ x :: rest = p) (hg : g.SecretText = pre) :
    codesFeedString toLower g [x] =
      if rest = [] then (⟨[], ensureCodes g.Codes⟩, [⟨cb, p⟩])
      else (⟨pre ++ [x], ensureCodes g.Codes⟩, []) := by
  have hx : toLower [x] = [x] := hlower x (by rw [← hp]; simp)
  rw [codesFeedString_eq, hg, hx]
  rw [← exactLoop_eq_lookup] at hreg
  have hpre : pre ++ [x] <+: p := ⟨rest, by rw [← hp]; simp⟩
  have hne : pre ++ [x] ≠ [] := by simp
  have hv : Viable (ensureCodes g.Codes) (pre ++ [x]) :=
    ⟨(p, cb), exactLoop_some_mem hreg, hpre⟩
  have hpend := pending_of_viable _ _ hne hv
  by_cases hrest : rest = []
  · subst hrest
    rw [if_pos rfl]
    rw [hp] at hpend ⊢
    rw [outcome_of_exact hpend (by rw [← hp]; simp) hreg]
  · rw [if_neg hrest]
    have hnone : exactLoop (ensureCodes g.Codes) (pre ++ [x]) = none := by
      rw [exactLoop_eq_none_iff]
      intro e he heq
      have h2 := hproper e he (by rw [heq]; exact hpre)
      rw [heq, ← hp] at h2
      have h3 := congrArg List.length h2
      simp only [List.length_append, List.length_cons, List.length_nil] at h3
      exact hrest (List.length_eq_zero.1 (by omega))
    rw [outcome_of_none hpend hne hnone]

theorem typing_phrase_from (toLower : QString → QString) (codes : QMap) (p : QString)
    (cb : Callback) (hreg : codes.lookup p = some cb)
    (hlower : ∀ c ∈ p, toLower [c] = [c])
    (hproper : ∀ e ∈ codes, e.1 <+: p → e.1 = p) :
    ∀ (rest pre : QString) (g : Globals), pre ++ rest = p → g.SecretText = pre →
      ensureCodes g.Codes = codes →
      keyPressEvents toLower g (perCharacter rest) =
        (List.range rest.length).map (fun j =>
          if pre.length + j + 1 < p.length then (⟨p.take (pre.length + j + 1), codes⟩, [])
          else (⟨[], codes⟩, [⟨cb, p⟩])) := by
  intro rest
  induction rest with
  | nil =>
    intro pre g _ _ _
    rfl
  | cons x rest ih =>
    intro pre g hp hg hc
    have hstep := typing_step toLower g p pre rest x cb (by rw [hc]; exact hreg) hlower
      (by rw [hc]; exact hproper) hp hg
    rw [hc] at hstep
    have hlen : p.length = pre.length + (rest.length + 1) := by
      rw [← hp]
      simp
    show codesFeedString toLower g [x] ::
      keyPressEvents toLower (codesFeedString toLower g [x]).1 (perCharacter rest) = _
    rw [List.length_cons, List.range_succ_eq_map, List.map_cons, List.map_map, hstep]
    by_cases hrest : rest = []
    · subst hrest
      have hfalse : ¬ (pre.length + 0 + 1 < p.length) := by
        rw [hlen]
        simp
      rw [if_pos rfl, if_neg hfalse]
      rfl
    · have hpos : 0 < rest.length := List.length_pos.2 hrest
      have htrue : pre.length + 0 + 1 < p.length := by
        rw [hlen]
        omega
      have htake : p.take (pre.length + 0 + 1) = pre ++ [x] := by
        rw [← hp]
        have : pre ++ x :: rest = (pre ++ [x]) ++ rest := by simp
        rw [this]
        have hl : pre.length + 0 + 1 = (pre ++ [x]).length := by simp
        rw [hl, List.take_left]
      rw [if_neg hrest, if_pos htrue, htake]
      congr 1
      rw [ih (pre ++ [x]) _ (by rw [← hp]; simp) rfl (by rw [← hc]; exact ensureCodes_idem _)]
      apply List.map_congr_left
      intro j _
      have hj : (pre ++ [x]).length + j + 1 = pre.length + (j + 1) + 1 := by
        simp
        omega
      simp only [Function.comp, hj, Nat.succ_eq_add_one]

/-- C8: for a key `p` made of lower-case characters such that no key is a proper beginning
of `p`, feeding the characters of `p` one per call from an empty `SecretText` gives these
results, call by call: every call but the last invokes nothing and leaves in `SecretText`
the part of `p` typed so far; the last call invokes the callback of `p`, once, and nothing
else, and leaves `SecretText` empty. -/
theorem typing_a_phrase_fires_once (toLower : QString → QString) (codes : QMap)
    (p : QString) (cb : Callback)
    (hreg : (ensureCodes codes).lookup p = some cb)
    (hlower : ∀ c ∈ p, toLower [c] = [c])
    (hproper : ∀ e ∈ ensureCodes codes, e.1 <+: p → e.1 = p) :
    keyPressEvents toLower ⟨[], codes⟩ (perCharacter p) =
      (List.range p.length).map (fun k =>
        if k + 1 < p.length then (⟨p.take (k + 1), ensureCodes codes⟩, [])
        else (⟨[], ensureCodes codes⟩, [⟨cb, p⟩])) := by
  have h := typing_phrase_from toLower (ensureCodes codes) p cb hreg hlower hproper p []
    ⟨[], codes⟩ rfl rfl rfl
  rw [h]
  apply List.map_congr_left
  intro k _
  simp

/-- C8, at the map `{"abc"}` with the phrase `"abc"`, and at the map `{"ab": A, "ax": B}`
with the phrases `"ab"` and `"ax"`. -/
theorem typing_a_phrase_fires_once_witness :
    keyPressEvents asciiToLower ⟨[], codesAbc⟩ (perCharacter (qsl "abc")) =
        [(⟨qsl "a", codesAbc⟩, []), (⟨qsl "ab", codesAbc⟩, []),
          (⟨[], codesAbc⟩, [⟨Callback.other 0, qsl "abc"⟩])] ∧
      keyPressEvents asciiToLower ⟨[], codesAbAx⟩ (perCharacter (qsl "ab")) =
        [(⟨qsl "a", codesAbAx⟩, []), (⟨[], codesAbAx⟩, [⟨Callback.other 0, qsl "ab"⟩])] ∧
      keyPressEvents asciiToLower ⟨[], codesAbAx⟩ (perCharacter (qsl "ax")) =
        [(⟨qsl "a", codesAbAx⟩, []), (⟨[], codesAbAx⟩, [⟨Callback.other 1, qsl "ax"⟩])] :=
  ⟨(typing_a_phrase_fires_once asciiToLower codesAbc (qsl "abc") (Callback.other 0)
      (by decide) (by decide) (by decide)).trans (by decide),
    (typing_a_phrase_fires_once asciiToLower codesAbAx (qsl "ab") (Callback.other 0)
      (by decide) (by decide) (by decide)).trans (by decide),
    (typing_a_phrase_fires_once asciiToLower codesAbAx (qsl "ax") (Callback.other 1)
      (by decide) (by decide) (by decide)).trans (by decide)⟩

/-! ## Bounds on what a call leaves in `SecretText` -/

theorem length_le_maxKeyLength {codes : QMap} {e : QString × Callback} (h : e ∈ codes) :
    e.1.length ≤ maxKeyLength codes := by
  induction codes with
  | nil => cases h
  | cons d rest ih =>
    unfold maxKeyLength
    rw [List.map_cons, List.foldr_cons]
    rcases List.mem_cons.1 h with rfl | h2
    · exact Nat.le_max_left _ _
    · exact (ih h2).trans (Nat.le_max_right _ _)

/-- After a call, `SecretText` is empty, or it begins a key without being one. -/
theorem codesFeedString_strict (toLower : QString → QString) (g : Globals) (text : QString) :
    (codesFeedString toLower g text).1.SecretText = [] ∨
      ((codesFeedString toLower g text).1.SecretText ≠ [] ∧
        Viable (ensureCodes g.Codes) (codesFeedString toLower g text).1.SecretText ∧
        exactLoop (ensureCodes g.Codes) (codesFeedString toLower g text).1.SecretText = none) := by
  rw [codesFeedString_eq]
  simp only
  rcases outcome_cases (ensureCodes g.Codes) (g.SecretText ++ toLower text) with
    ⟨_, ho⟩ | ⟨cb, _, _, ho⟩ | ⟨hne, hx, ho⟩
  · rw [ho]
    exact Or.inl rfl
  · rw [ho]
    exact Or.inl rfl
  · rw [ho]
    exact Or.inr ⟨hne, pending_viable _ _ hne, hx⟩

/-- C13: a single call of `codesFeedString` invokes at most one callback, whatever the
map, the previous `SecretText` and the text. -/
theorem at_most_one_callback_per_call (toLower : QString → QString) (g : Globals)
    (text : QString) : (codesFeedString toLower g text).2.length ≤ 1 := by
  rw [codesFeedString_eq]
  simp only
  rcases outcome_cases (ensureCodes g.Codes) (g.SecretText ++ toLower text) with
    ⟨_, ho⟩ | ⟨cb, _, _, ho⟩ | ⟨_, _, ho⟩ <;> rw [ho] <;> simp

/-- C14: after every call of `codesFeedString`, whatever the previous `SecretText` and the
text, the length of `SecretText` does not exceed the length of the longest key of `Codes`. -/
theorem secretText_length_le_longest_key (toLower : QString → QString) (g : Globals)
    (text : QString) :
    (codesFeedString toLower g text).1.SecretText.length ≤
      maxKeyLength (codesFeedString toLower g text).1.Codes := by
  rw [codesFeedString_codes]
  rcases codesFeedString_strict toLower g text with h | ⟨_, ⟨e, he, hpre⟩, _⟩
  · rw [h]
    exact Nat.zero_le _
  · exact (List.IsPrefix.length_le hpre).trans (length_le_maxKeyLength he)

/-- C18: after every call of `codesFeedString`, a non-empty `SecretText` is not a key of
`Codes`; it is a proper beginning of some key, and it is strictly shorter than the longest
key. -/
theorem nonempty_secretText_is_proper_prefix (toLower : QString → QString) (g : Globals)
    (text : QString) (hne : (codesFeedString toLower g text).1.SecretText ≠ []) :
    (∀ e ∈ (codesFeedString toLower g text).1.Codes,
        e.1 ≠ (codesFeedString toLower g text).1.SecretText) ∧
      (∃ e ∈ (codesFeedString toLower g text).1.Codes,
        (codesFeedString toLower g text).1.SecretText <+: e.1 ∧
        (codesFeedString toLower g text).1.SecretText ≠ e.1 ∧
        (codesFeedString toLower g text).1.SecretText.length < e.1.length) ∧
      (codesFeedString toLower g text).1.SecretText.length <
        maxKeyLength (codesFeedString toLower g text).1.Codes := by
  rw [codesFeedString_codes]
  rcases codesFeedString_strict toLower g text with h | ⟨_, ⟨e, he, hpre⟩, hx⟩
  · exact absurd h hne
  · have hnot := (exactLoop_eq_none_iff _ _).1 hx
    have hlt : (codesFeedString toLower g text).1.SecretText.length < e.1.length := by
      rcases Nat.lt_or_ge (codesFeedString toLower g text).1.SecretText.length e.1.length
        with h | h
      · exact h
      · exact absurd (List.IsPrefix.eq_of_length_le hpre h).symm (hnot e he)
    exact ⟨hnot, ⟨e, he, hpre, fun h => hnot e he h.symm, hlt⟩,
      Nat.lt_of_lt_of_le hlt (length_le_maxKeyLength he)⟩

/-- C18, at the map `{"ab": A, "abc": B}`, an empty `SecretText` and the text `"xa"`:
`"a"` is kept. -/
theorem nonempty_secretText_is_proper_prefix_witness :
    (∀ e ∈ (codesFeedString asciiToLower ⟨[], codesAbAbc⟩ (qsl "xa")).1.Codes,
        e.1 ≠ (codesFeedString asciiToLower ⟨[], codesAbAbc⟩ (qsl "xa")).1.SecretText) ∧
      (∃ e ∈ (codesFeedString asciiToLower ⟨[], codesAbAbc⟩ (qsl "xa")).1.Codes,
        (codesFeedString asciiToLower ⟨[], codesAbAbc⟩ (qsl "xa")).1.SecretText <+: e.1 ∧
        (codesFeedString asciiToLower ⟨[], codesAbAbc⟩ (qsl "xa")).1.SecretText ≠ e.1 ∧
        (codesFeedString asciiToLower ⟨[], codesAbAbc⟩ (qsl "xa")).1.SecretText.length <
          e.1.length) ∧
      (codesFeedString asciiToLower ⟨[], codesAbAbc⟩ (qsl "xa")).1.SecretText.length <
        maxKeyLength (codesFeedString asciiToLower ⟨[], codesAbAbc⟩ (qsl "xa")).1.Codes :=
  nonempty_secretText_is_proper_prefix asciiToLower ⟨[], codesAbAbc⟩ (qsl "xa")
    (by rw [codesFeedString_eq]; decide)

/-! ## Termination of the scan -/

theorem whileLoopFuel_eq (codes : QMap) (secretText : QString) (size : Nat) :
    ∀ (n from_ : Nat), size - from_ = n →
      whileLoopFuel codes secretText size n from_ =
        some (whileLoop codes secretText size from_) := by
  intro n
  induction n with
  | zero =>
    intro from_ hn
    have hle : ¬ size > from_ := by omega
    rw [whileLoop]
    simp only [whileLoopFuel, hle, if_false]
  | succ n ih =>
    intro from_ hn
    have hlt : size > from_ := by omega
    rw [whileLoop]
    simp only [whileLoopFuel, loopBody, hlt, if_true]
    cases exactLoop codes (secretText.drop from_) with
    | some cb => rfl
    | none =>
      simp only
      by_cases hv : viableLoop codes (secretText.drop from_) = true
      · simp only [hv, if_true]
      · simp only [hv, if_false, Bool.false_eq_true]
        exact ih (from_ + 1) (by omega)

theorem whileLoop_bounds (codes : QMap) (secretText : QString) (size : Nat) :
    ∀ (n from_ : Nat), size - from_ = n → from_ ≤ size →
      from_ ≤ (whileLoop codes secretText size from_).1 ∧
        (whileLoop codes secretText size from_).1 ≤ size := by
  intro n
  induction n with
  | zero =>
    intro from_ hn hle
    have hnot : ¬ size > from_ := by omega
    rw [whileLoop]
    simp only [hnot, if_false]
    omega
  | succ n ih =>
    intro from_ hn hle
    have hlt : size > from_ := by omega
    rw [whileLoop]
    simp only [hlt, if_true]
    cases exactLoop codes (secretText.drop from_) with
    | some cb =>
      simp only
      omega
    | none =>
      simp only
      by_cases hv : viableLoop codes (secretText.drop from_) = true
      · simp only [hv, if_true]
        omega
      · simp only [hv, if_false, Bool.false_eq_true]
        have h := ih (from_ + 1) (by omega) (by omega)
        omega

/-- C15: the scan of `codesFeedString` terminates.  An iteration of the `while` loop that
does not leave the loop goes on with the offset `from + 1`; run from the offset `from`,
the loop is left after at most `size - from` iterations, with the result `whileLoop`
computes; and the final offset lies between the initial one and `size`.
`codesFeedString` runs the loop from the offset 0 with `size` the length of the working
buffer. -/
theorem whileLoop_terminates (codes : QMap) (secretText : QString) (size from_ : Nat) :
    (∀ f, loopBody codes secretText size from_ = LoopStep.next f → f = from_ + 1) ∧
      whileLoopFuel codes secretText size (size - from_) from_ =
        some (whileLoop codes secretText size from_) ∧
      (from_ ≤ size →
        from_ ≤ (whileLoop codes secretText size from_).1 ∧
          (whileLoop codes secretText size from_).1 ≤ size) := by
  refine ⟨?_, whileLoopFuel_eq codes secretText size _ from_ rfl,
    whileLoop_bounds codes secretText size _ from_ rfl⟩
  intro f hf
  unfold loopBody at hf
  simp only at hf
  cases hx : exactLoop codes (secretText.drop from_) with
  | some cb =>
    rw [hx] at hf
    cases hf
  | none =>
    rw [hx] at hf
    simp only at hf
    by_cases hv : viableLoop codes (secretText.drop from_) = true
    · rw [if_pos hv] at hf
      cases hf
    · rw [if_neg hv] at hf
      cases hf
      rfl

/-- C15, at the map `{"abc"}` and the working buffer `"xyzab"`: three iterations go on,
the fourth leaves the loop at the offset 3. -/
theorem whileLoop_terminates_witness :
    loopBody codesAbc (qsl "xyzab") 5 2 = LoopStep.next 3 ∧
      whileLoopFuel codesAbc (qsl "xyzab") 5 4 0 = some (3, []) ∧
      whileLoop codesAbc (qsl "xyzab") 5 0 = (3, []) :=
  ⟨by decide, by decide,
    Option.some.inj
      (((whileLoop_terminates codesAbc (qsl "xyzab") 5 0).2.1).symm.trans
        (by decide))⟩

/-! ## Empty input and case normalization -/

theorem reached_strict (toLower : QString → QString) (codes : QMap)
    (texts : List QString) :
    (globalsAfter toLower ⟨[], codes⟩ texts).SecretText = [] ∨
      ((globalsAfter toLower ⟨[], codes⟩ texts).SecretText ≠ [] ∧
        Viable (ensureCodes codes) (globalsAfter toLower ⟨[], codes⟩ texts).SecretText ∧
        exactLoop (ensureCodes codes)
          (globalsAfter toLower ⟨[], codes⟩ texts).SecretText = none) := by
  rcases List.eq_nil_or_concat texts with rfl | ⟨init, text, rfl⟩
  · exact Or.inl rfl
  · rw [List.concat_eq_append, globalsAfter_concat]
    have h := codesFeedString_strict toLower (globalsAfter toLower ⟨[], codes⟩ init) text
    rw [globalsAfter_ensureCodes] at h
    exact h

theorem noop_call (toLower : QString → QString) (h0 : toLower [] = []) (g : Globals)
    (h : g.SecretText = [] ∨
      (g.SecretText ≠ [] ∧ Viable (ensureCodes g.Codes) g.SecretText ∧
        exactLoop (ensureCodes g.Codes) g.SecretText = none)) :
    codesFeedString toLower g [] = (⟨g.SecretText, ensureCodes g.Codes⟩, []) := by
  rw [codesFeedString_eq, h0, List.append_nil]
  rcases h with h | ⟨hne, hv, hx⟩
  · have hp : pending (ensureCodes g.Codes) [] = [] := rfl
    rw [h, outcome_of_nil hp]
  · rw [outcome_of_none (pending_of_viable _ _ hne hv) hne hx]

theorem noop_repeat (toLower : QString → QString) (h0 : toLower [] = []) (n : Nat) :
    ∀ (g : Globals), (g.SecretText = [] ∨
      (g.SecretText ≠ [] ∧ Viable (ensureCodes g.Codes) g.SecretText ∧
        exactLoop (ensureCodes g.Codes) g.SecretText = none)) →
      keyPressEvents toLower g (List.replicate n []) =
        List.replicate n (⟨g.SecretText, ensureCodes g.Codes⟩, []) := by
  induction n with
  | zero =>
    intro g _
    rfl
  | succ n ih =>
    intro g hg
    rw [List.replicate_succ, List.replicate_succ]
    show codesFeedString toLower g [] ::
      keyPressEvents toLower (codesFeedString toLower g []).1 (List.replicate n []) = _
    rw [noop_call toLower h0 g hg]
    have hnext := ih ⟨g.SecretText, ensureCodes g.Codes⟩ (by
      simp only [ensureCodes_idem]
      exact hg)
    simp only [ensureCodes_idem] at hnext
    rw [hnext]

/-- C11: in every state reached from an empty `SecretText` by calls of `codesFeedString`,
any number `n` of calls with the empty text invoke no callback and leave `SecretText` as
it was (lower-casing the empty text gives the empty text). -/
theorem empty_input_is_noop (toLower : QString → QString) (codes : QMap)
    (texts : List QString) (n : Nat) (h0 : toLower [] = []) :
    keyPressEvents toLower (globalsAfter toLower ⟨[], codes⟩ texts) (List.replicate n []) =
      List.replicate n
        (⟨(globalsAfter toLower ⟨[], codes⟩ texts).SecretText, ensureCodes codes⟩, []) := by
  have h := noop_repeat toLower h0 n (globalsAfter toLower ⟨[], codes⟩ texts) (by
    rw [globalsAfter_ensureCodes]
    exact reached_strict toLower codes texts)
  rw [globalsAfter_ensureCodes] at h
  exact h

/-- C11, at the map `{"ab": A, "abc": B}` after the call `"xa"`: three calls with the
empty text leave `"a"` in `SecretText`. -/
theorem empty_input_is_noop_witness :
    keyPressEvents asciiToLower (globalsAfter asciiToLower ⟨[], codesAbAbc⟩ [qsl "xa"])
        [[], [], []] =
      [(⟨qsl "a", codesAbAbc⟩, []), (⟨qsl "a", codesAbAbc⟩, []),
        (⟨qsl "a", codesAbAbc⟩, [])] :=
  (empty_input_is_noop asciiToLower codesAbAbc [qsl "xa"] 3 rfl).trans (by
    simp only [globalsAfter, List.foldl, codesFeedString_eq]
    decide)

/-- C12: when lower-casing a lower-cased text changes nothing, a call with `text` and a
call with `toLower text` invoke the same callback and leave the same `SecretText`. -/
theorem case_normalization (toLower : QString → QString) (g : Globals) (text : QString)
    (hidem : toLower (toLower text) = toLower text) :
    codesFeedString toLower g text = codesFeedString toLower g (toLower text) := by
  rw [codesFeedString_eq, codesFeedString_eq, hidem]

/-- C12, at the map `{"abc": A}`, an empty `SecretText` and the text `"ABC"`: the
callback of `"abc"` is invoked. -/
theorem case_normalization_witness :
    codesFeedString asciiToLower ⟨[], codesAbc⟩ (qsl "ABC") =
      (⟨[], codesAbc⟩, [⟨Callback.other 0, qsl "abc"⟩]) :=
  (case_normalization asciiToLower ⟨[], codesAbc⟩ (qsl "ABC") (by decide)).trans (by
    rw [codesFeedString_eq]
    decide)

/-! ## Soundness and conditional completeness -/

theorem suffix_append_right {s H : QString} (h : s <:+ H) (x : QString) :
    s ++ x <:+ H ++ x := by
  obtain ⟨t, ht⟩ := h
  exact ⟨t, by rw [← List.append_assoc, ht]⟩

theorem codesFeedString_suffix (toLower : QString → QString) (g : Globals)
    (H text : QString) (h : g.SecretText <:+ H) :
    (codesFeedString toLower g text).1.SecretText <:+ H ++ toLower text := by
  rw [codesFeedString_eq]
  simp only
  rcases outcome_cases (ensureCodes g.Codes) (g.SecretText ++ toLower text) with
    ⟨_, ho⟩ | ⟨cb, _, _, ho⟩ | ⟨_, _, ho⟩
  · rw [ho]
    exact List.nil_suffix
  · rw [ho]
    exact List.nil_suffix
  · rw [ho]
    exact (pending_suffix _ _).trans (suffix_append_right h _)

theorem globalsAfter_suffix (toLower : QString → QString) (codes : QMap)
    (texts : List QString) :
    (globalsAfter toLower ⟨[], codes⟩ texts).SecretText <:+ (texts.map toLower).flatten := by
  induction texts using List.reverseRecOn with
  | nil => exact List.nil_suffix
  | append_singleton init text ih =>
    rw [globalsAfter_concat, List.map_append, List.flatten_append]
    have h := codesFeedString_suffix toLower _ _ text ih
    simpa using h

/-- C16: in every sequence of calls from an empty `SecretText`, `SecretText` is a suffix
of the concatenation of the lower-cased texts fed so far; and whenever a call invokes a
callback, that callback is the one the map holds for a non-empty key `p` with which the
concatenation of the lower-cased texts fed so far, the text of this call included, ends. -/
theorem fired_phrase_was_just_typed (toLower : QString → QString) (codes : QMap)
    (texts : List QString) (text : QString) :
    (globalsAfter toLower ⟨[], codes⟩ texts).SecretText <:+ (texts.map toLower).flatten ∧
      ∀ inv ∈ (codesFeedString toLower (globalsAfter toLower ⟨[], codes⟩ texts) text).2,
        ∃ p, p ≠ [] ∧ (ensureCodes codes).lookup p = some inv.callback ∧
          p <:+ (texts.map toLower).flatten ++ toLower text := by
  refine ⟨globalsAfter_suffix toLower codes texts, ?_⟩
  intro inv hinv
  have hsuf := globalsAfter_suffix toLower codes texts
  have hc := globalsAfter_ensureCodes toLower ⟨[], codes⟩ texts
  simp only at hc
  rw [codesFeedString_eq, hc] at hinv
  simp only at hinv
  rcases outcome_cases (ensureCodes codes)
      ((globalsAfter toLower ⟨[], codes⟩ texts).SecretText ++ toLower text) with
    ⟨_, ho⟩ | ⟨cb, hne, hx, ho⟩ | ⟨_, _, ho⟩
  · rw [ho] at hinv
    cases hinv
  · rw [ho] at hinv
    have hi : inv = ⟨cb, (globalsAfter toLower ⟨[], codes⟩ texts).SecretText ++
        toLower text⟩ := by simpa using hinv
    subst hi
    refine ⟨_, hne, ?_, (pending_suffix _ _).trans (suffix_append_right hsuf _)⟩
    rw [← exactLoop_eq_lookup]
    exact hx
  · rw [ho] at hinv
    cases hinv

/-- C17: take a map of non-empty keys in which no key occurs inside a different key and
every key has a callback of its own.  After any calls from an empty `SecretText` (one
character per call in particular), a call invokes the callback of the key `p`, and
nothing else, if and only if the lower-cased text fed since the last call that invoked a
callback (since the start when none did), the text of this call included, ends with `p`. -/
theorem fires_iff_just_typed (toLower : QString → QString) (codes : QMap)
    (texts : List QString) (text p : QString) (cb : Callback)
    (hne : ∀ e ∈ ensureCodes codes, e.1 ≠ [])
    (hsub : ∀ e1 ∈ ensureCodes codes, ∀ e2 ∈ ensureCodes codes,
      e1.1 <:+: e2.1 → e1.1 = e2.1)
    (hown : ∀ e1 ∈ ensureCodes codes, ∀ e2 ∈ ensureCodes codes, e1.2 = e2.2 → e1.1 = e2.1)
    (hreg : (ensureCodes codes).lookup p = some cb) :
    (codesFeedString toLower (globalsAfter toLower ⟨[], codes⟩ texts) text).2.map
        Invocation.callback = [cb] ↔
      p <:+ typedSinceFiring toLower ⟨[], codes⟩ [] texts ++ toLower text := by
  have hstate := typedSinceFiring_spec toLower texts ⟨[], codes⟩ [] rfl
  have hc := globalsAfter_ensureCodes toLower ⟨[], codes⟩ texts
  simp only at hstate hc
  rw [← hc] at hstate
  obtain ⟨_, h2, _⟩ := codesFeedString_pruned toLower _ _ text hstate
  rw [hc] at h2
  rw [h2]
  rw [← exactLoop_eq_lookup] at hreg
  have hmem := exactLoop_some_mem hreg
  have hpne : p ≠ [] := hne _ hmem
  generalize typedSinceFiring toLower ⟨[], codes⟩ [] texts ++ toLower text = T
  constructor
  · intro hfired
    rcases outcome_cases (ensureCodes codes) T with
      ⟨_, ho⟩ | ⟨cb2, _, hx, ho⟩ | ⟨_, _, ho⟩
    · rw [ho] at hfired
      cases hfired
    · rw [ho] at hfired
      have hcb : cb2 = cb := by simpa using hfired
      subst hcb
      have hq := hown _ (exactLoop_some_mem hx) _ hmem rfl
      simp only at hq
      rw [← hq]
      exact pending_suffix _ _
    · rw [ho] at hfired
      cases hfired
  · intro hend
    have hsuf := pending_max _ _ _ hend hpne (exactLoop_some_viable hreg)
    have hVne : pending (ensureCodes codes) T ≠ [] := by
      intro h
      rw [h] at hsuf
      exact hpne (List.suffix_nil.1 hsuf)
    obtain ⟨e, he, hpre⟩ := pending_viable _ _ hVne
    have hinfix : p <:+: e.1 := by
      obtain ⟨a, ha⟩ := hsuf
      obtain ⟨b, hb⟩ := hpre
      exact ⟨a, b, by rw [ha, hb]⟩
    have hpe := hsub _ hmem _ he hinfix
    simp only at hpe
    rw [← hpe] at hpre
    have hp : pending (ensureCodes codes) T = p :=
      (List.IsSuffix.eq_of_length_le hsuf (List.IsPrefix.length_le hpre)).symm
    rw [outcome_of_exact hp hpne hreg]
    rfl

/-- C17, at the eleven codes of `fillCodes` (the map is empty before the first call):
none of them is empty, none occurs inside another, each has its own callback; after
`x`, `d`, `e`, `b`, `u`, `g`, `m`, `o`, `d` fed one per call, the call `e` invokes the
callback of `debugmode`. -/
theorem fires_iff_just_typed_witness :
    (codesFeedString asciiToLower
        (globalsAfter asciiToLower ⟨[], []⟩ (perCharacter (qsl "xdebugmod"))) (qsl "e")).2.map
      Invocation.callback = [Callback.debugmode] :=
  (fires_iff_just_typed asciiToLower [] (perCharacter (qsl "xdebugmod")) (qsl "e")
    (qsl "debugmode") Callback.debugmode (by decide) (by decide) (by decide)
    (by decide)).2 (by
      simp only [perCharacter, qsl, String.toList, List.map, typedSinceFiring,
        codesFeedString_eq]
      decide)

/-! ## The padding computed by `Widget::parentResized` -/

theorem tdiv_interpolation_nonneg {a b d : Int} (hd : 0 < d) (hb : 0 ≤ b) (ha : 0 ≤ a) :
    0 ≤ (a * b).tdiv d :=
  Int.tdiv_nonneg (Int.mul_nonneg ha hb) (Int.le_of_lt hd)

theorem tdiv_interpolation_le {a b d : Int} (hd : 0 < d) (hb : 0 ≤ b) (ha : a ≤ d) :
    (a * b).tdiv d ≤ b := by
  by_cases h : 0 ≤ a * b
  · rw [Int.tdiv_eq_ediv h (Int.le_of_lt hd)]
    apply Int.ediv_le_of_le_mul hd
    rw [Int.mul_comm b d]
    exact Int.mul_le_mul_of_nonneg_right ha hb
  · have hneg : a * b = -(-(a * b)) := (Int.neg_neg _).symm
    rw [hneg, Int.neg_tdiv]
    have h2 : 0 ≤ (-(a * b)).tdiv d := Int.tdiv_nonneg (by omega) (Int.le_of_lt hd)
    omega

theorem wrapInt_eq {x : Int} (h1 : -2147483648 ≤ x) (h2 : x ≤ 2147483647) :
    wrapInt x = x := by
  unfold wrapInt
  omega

/-- The interpolation at a width between `windowMinWidth` and `settingsMaxWidth`, when
nothing leaves the range of `int`: it has a result, between 0 and the difference of the
two paddings. -/
theorem paddingShift_in_range (st : Style) (newWidth : Int)
    (hw : st.windowMinWidth < st.settingsMaxWidth)
    (hp : st.settingsMinPadding ≤ st.settingsMaxPadding)
    (hwidths : st.settingsMaxWidth - st.windowMinWidth ≤ 2147483647)
    (hpaddings : st.settingsMaxPadding - st.settingsMinPadding ≤ 2147483647)
    (hproduct : (st.settingsMaxWidth - st.windowMinWidth) *
      (st.settingsMaxPadding - st.settingsMinPadding) ≤ 2147483647)
    (hlo : st.windowMinWidth ≤ newWidth) (hhi : newWidth ≤ st.settingsMaxWidth) :
    ∃ shift, paddingShift st newWidth = some shift ∧ 0 ≤ shift ∧
      shift ≤ st.settingsMaxPadding - st.settingsMinPadding := by
  have hd : 0 < st.settingsMaxWidth - st.windowMinWidth := by omega
  have hb : 0 ≤ st.settingsMaxPadding - st.settingsMinPadding := by omega
  have ha0 : 0 ≤ newWidth - st.windowMinWidth := by omega
  have had : newWidth - st.windowMinWidth ≤ st.settingsMaxWidth - st.windowMinWidth := by
    omega
  have e1 : wrapInt (newWidth - st.windowMinWidth) = newWidth - st.windowMinWidth :=
    wrapInt_eq (by omega) (by omega)
  have e2 : wrapInt (st.settingsMaxPadding - st.settingsMinPadding) =
      st.settingsMaxPadding - st.settingsMinPadding := wrapInt_eq (by omega) (by omega)
  have e3 : wrapInt (st.settingsMaxWidth - st.windowMinWidth) =
      st.settingsMaxWidth - st.windowMinWidth := wrapInt_eq (by omega) (by omega)
  have hp0 : 0 ≤ (newWidth - st.windowMinWidth) *
      (st.settingsMaxPadding - st.settingsMinPadding) := Int.mul_nonneg ha0 hb
  have hpM : (newWidth - st.windowMinWidth) *
      (st.settingsMaxPadding - st.settingsMinPadding) ≤
      (st.settingsMaxWidth - st.windowMinWidth) *
        (st.settingsMaxPadding - st.settingsMinPadding) :=
    Int.mul_le_mul_of_nonneg_right had hb
  have e4 : wrapInt ((newWidth - st.windowMinWidth) *
      (st.settingsMaxPadding - st.settingsMinPadding)) =
      (newWidth - st.windowMinWidth) * (st.settingsMaxPadding - st.settingsMinPadding) :=
    wrapInt_eq (by omega) (by omega)
  have hne0 : ¬ (st.settingsMaxWidth - st.windowMinWidth = 0) := by omega
  have hne1 : ¬ ((newWidth - st.windowMinWidth) *
      (st.settingsMaxPadding - st.settingsMinPadding) = -2147483648 ∧
      st.settingsMaxWidth - st.windowMinWidth = -1) := by omega
  unfold paddingShift divInt
  rw [e1, e2, e3, e4, if_neg hne0, if_neg hne1]
  exact ⟨_, rfl, tdiv_interpolation_nonneg hd hb ha0, tdiv_interpolation_le hd hb had⟩

/-- C19 fails as stated, in two ways.  With `windowMinWidth = 380`,
`settingsMaxWidth = 520`, paddings from 32 to 48 and `settingsMargin = 100`, a parent 521
wide gives `newWidth = 321` in the margin branch and the padding 26, below
`settingsMinPadding`.  With widths from 0 to 100000, paddings from 0 to 100000 and no
margin, a parent 65536 wide makes the product leave the range of `int`, and the padding
is -20363.  Both sets of constants meet the three conditions of the claim. -/
theorem parentResized_padding_below_minimum :
    (styleWideMargin.isInt ∧
      styleWideMargin.windowMinWidth < styleWideMargin.settingsMaxWidth ∧
      styleWideMargin.settingsMinPadding ≤ styleWideMargin.settingsMaxPadding ∧
      0 ≤ styleWideMargin.settingsMargin ∧
      parentResized styleWideMargin 521 = some (321, 26) ∧
      (26 : Int) < styleWideMargin.settingsMinPadding) ∧
    (styleLarge.isInt ∧
      styleLarge.windowMinWidth < styleLarge.settingsMaxWidth ∧
      styleLarge.settingsMinPadding ≤ styleLarge.settingsMaxPadding ∧
      0 ≤ styleLarge.settingsMargin ∧
      parentResized styleLarge 65536 = some (65536, -20363) ∧
      (-20363 : Int) < styleLarge.settingsMinPadding) := by
  decide

/-- C19, as the code has it: for `int` style constants with
`windowMinWidth < settingsMaxWidth`, `settingsMinPadding ≤ settingsMaxPadding` and
`settingsMargin ≥ 0`, when moreover `2 * settingsMargin ≤ settingsMaxWidth - windowMinWidth`
and the differences of the widths and of the paddings, their product and
`settingsMaxWidth + 2 * settingsMargin` stay within the range of `int`, then for every
width of the parent `Widget::parentResized` reaches `resizeToWidth`, and the padding it
passes lies between `settingsMinPadding` and `settingsMaxPadding` inclusive, in every
branch. -/
theorem parentResized_padding_in_range (st : Style) (windowWidth : Int)
    (hst : st.isInt)
    (hw : st.windowMinWidth < st.settingsMaxWidth)
    (hp : st.settingsMinPadding ≤ st.settingsMaxPadding)
    (hm : 0 ≤ st.settingsMargin)
    (hmargin : 2 * st.settingsMargin ≤ st.settingsMaxWidth - st.windowMinWidth)
    (hwidths : st.settingsMaxWidth - st.windowMinWidth ≤ 2147483647)
    (hpaddings : st.settingsMaxPadding - st.settingsMinPadding ≤ 2147483647)
    (hproduct : (st.settingsMaxWidth - st.windowMinWidth) *
      (st.settingsMaxPadding - st.settingsMinPadding) ≤ 2147483647)
    (hsum : st.settingsMaxWidth + 2 * st.settingsMargin ≤ 2147483647) :
    ∃ newWidth newContentLeft,
      parentResized st windowWidth = some (newWidth, newContentLeft) ∧
        st.settingsMinPadding ≤ newContentLeft ∧
        newContentLeft ≤ st.settingsMaxPadding := by
  obtain ⟨⟨hminW, _⟩, ⟨_, _⟩, ⟨hminP, _⟩, ⟨_, hmaxP⟩, _⟩ := hst
  unfold parentResized
  by_cases h1 : windowWidth ≤ st.settingsMaxWidth
  · simp only [h1, if_true]
    by_cases h2 : windowWidth > st.windowMinWidth
    · simp only [h2, if_true]
      obtain ⟨shift, hs, h0, hle⟩ := paddingShift_in_range st windowWidth hw hp hwidths
        hpaddings hproduct (by omega) h1
      rw [hs]
      refine ⟨windowWidth, wrapInt (st.settingsMinPadding + shift), rfl, ?_⟩
      rw [wrapInt_eq (by omega) (by omega)]
      omega
    · simp only [h2, if_false]
      exact ⟨windowWidth, st.settingsMinPadding, rfl, Int.le_refl _, hp⟩
  · simp only [h1, if_false]
    have e1 : wrapInt (2 * st.settingsMargin) = 2 * st.settingsMargin :=
      wrapInt_eq (by omega) (by omega)
    have e2 : wrapInt (st.settingsMaxWidth + 2 * st.settingsMargin) =
        st.settingsMaxWidth + 2 * st.settingsMargin := wrapInt_eq (by omega) (by omega)
    rw [e1, e2]
    by_cases h3 : windowWidth < st.settingsMaxWidth + 2 * st.settingsMargin
    · simp only [h3, if_true]
      have h2 : windowWidth > st.windowMinWidth := by omega
      simp only [h2, if_true]
      have e3 : wrapInt (windowWidth - 2 * st.settingsMargin) =
          windowWidth - 2 * st.settingsMargin := wrapInt_eq (by omega) (by omega)
      rw [e3]
      obtain ⟨shift, hs, h0, hle⟩ := paddingShift_in_range st
        (windowWidth - 2 * st.settingsMargin) hw hp hwidths hpaddings hproduct
        (by omega) (by omega)
      rw [hs]
      refine ⟨windowWidth - 2 * st.settingsMargin,
        wrapInt (st.settingsMinPadding + shift), rfl, ?_⟩
      rw [wrapInt_eq (by omega) (by omega)]
      omega
    · simp only [h3, if_false]
      exact ⟨st.settingsMaxWidth, st.settingsMaxPadding, rfl, hp, Int.le_refl _⟩

/-- C19 as amended, at `windowMinWidth = 380`, `settingsMaxWidth = 520`, paddings from 32
to 48 and `settingsMargin = 48`: a parent 450 wide (first branch) gets the padding 40, a
parent 521 wide (margin branch) gets `newWidth = 425` and the padding 37. -/
theorem parentResized_padding_in_range_witness :
    parentResized styleNarrowMargin 450 = some (450, 40) ∧
      parentResized styleNarrowMargin 521 = some (425, 37) ∧
      ∃ newWidth newContentLeft,
        parentResized styleNarrowMargin 521 = some (newWidth, newContentLeft) ∧
          styleNarrowMargin.settingsMinPadding ≤ newContentLeft ∧
          newContentLeft ≤ styleNarrowMargin.settingsMaxPadding :=
  ⟨by decide, by decide,
    parentResized_padding_in_range styleNarrowMargin 521 (by decide) (by decide)
      (by decide) (by decide) (by decide) (by decide) (by decide) (by decide) (by decide)⟩

end Settings
